import Mathlib

set_option maxRecDepth 100000

/-!
Verification of the document-hashing core (plugins/module_utils/hashes.py)
and the structural differ of the kubernetes.core collection.

Python documents are embedded as a JSON-like `Value` type; a Python `dict`
is an insertion-ordered association list with pairwise-distinct keys
(`keysDistinct`).  All functions below are translated from the source file
except where a doc comment says `Modelled from the spec:`.
-/

namespace KubeCore

/-- A Python/JSON value: string, integer number, boolean, null, list or dict.
A dict is an insertion-ordered association list of string keys to values. -/
inductive Value : Type where
  | str  (s : String)
  | num  (i : Int)
  | bool (b : Bool)
  | null
  | arr  (elts : List Value)
  | obj  (entries : List (String × Value))

/-- A Python dict (the representation of a Document). -/
abbrev Obj := List (String × Value)

/-- Python dict lookup (`d[k]` / `d.get(k)`): first entry with the given key.
Keys of a real dict are pairwise distinct, so "first" is exact. -/
def alookup : Obj → String → Option Value
  | [], _ => none
  | kv :: t, k => if kv.1 = k then some kv.2 else alookup t k

/-- Python dict assignment `d[k] = v`: replaces the value in place when the
key is present (keeping its position), otherwise appends the key at the end. -/
def dictSet (m : Obj) (k : String) (v : Value) : Obj :=
  if m.any (fun kv => kv.1 == k) then
    m.map (fun kv => if kv.1 = k then (k, v) else kv)
  else m ++ [(k, v)]

/-- Python `del d[k]`: removes the (unique) entry with key `k`. -/
def dictDel (m : Obj) (k : String) : Obj :=
  m.eraseP (fun kv => kv.1 == k)

/-- The keys of a dict are pairwise distinct (true of every Python dict). -/
def keysDistinct (m : Obj) : Prop :=
  m.Pairwise (fun a b => a.1 ≠ b.1)

instance : DecidablePred keysDistinct := fun m =>
  inferInstanceAs (Decidable (m.Pairwise _))

/-- Python string `<`: lexicographic comparison by code point, a strict
prefix being smaller. -/
def strLtL : List Char → List Char → Bool
  | _, [] => false
  | [], _ :: _ => true
  | a :: as, b :: bs =>
    if a.toNat < b.toNat then true
    else if b.toNat < a.toNat then false
    else strLtL as bs

theorem strLtL_irrefl : ∀ a : List Char, strLtL a a = false
  | [] => rfl
  | c :: cs => by
    rw [strLtL]
    simp only [lt_irrefl, if_false]
    exact strLtL_irrefl cs

theorem strLtL_asymm : ∀ a b : List Char,
    strLtL a b = true → strLtL b a = false
  | _, [], h => by simp [strLtL] at h
  | [], _ :: _, _ => rfl
  | a :: as, b :: bs, h => by
    rw [strLtL] at h ⊢
    by_cases h1 : a.toNat < b.toNat
    · rw [if_neg (by omega), if_pos h1]
    · rw [if_neg h1] at h
      by_cases h2 : b.toNat < a.toNat
      · rw [if_pos h2] at h
        cases h
      · rw [if_neg h2] at h
        rw [if_neg h2, if_neg h1]
        exact strLtL_asymm as bs h

theorem strLtL_trans : ∀ a b c : List Char,
    strLtL a b = true → strLtL b c = true → strLtL a c = true
  | _, _, [], _, h2 => by simp [strLtL] at h2
  | _, [], _ :: _, h1, _ => by simp [strLtL] at h1
  | [], _ :: _, _ :: _, _, _ => rfl
  | a :: as, b :: bs, c :: cs, h1, h2 => by
    rw [strLtL] at h1 h2 ⊢
    by_cases hab : a.toNat < b.toNat
    · by_cases hbc : b.toNat < c.toNat
      · rw [if_pos (by omega)]
      · rw [if_neg hbc] at h2
        by_cases hcb : c.toNat < b.toNat
        · rw [if_pos hcb] at h2; cases h2
        · have : b.toNat = c.toNat := by omega
          rw [if_pos (by omega)]
    · rw [if_neg hab] at h1
      by_cases hba : b.toNat < a.toNat
      · rw [if_pos hba] at h1; cases h1
      · rw [if_neg hba] at h1
        have hab' : a.toNat = b.toNat := by omega
        by_cases hbc : b.toNat < c.toNat
        · rw [if_pos (by omega)]
        · rw [if_neg hbc] at h2
          by_cases hcb : c.toNat < b.toNat
          · rw [if_pos hcb] at h2; cases h2
          · rw [if_neg hcb] at h2
            rw [if_neg (by omega), if_neg (by omega)]
            exact strLtL_trans as bs cs h1 h2

theorem strLtL_trichotomy : ∀ a b : List Char,
    strLtL a b = true ∨ a = b ∨ strLtL b a = true
  | [], [] => Or.inr (Or.inl rfl)
  | [], _ :: _ => Or.inl rfl
  | _ :: _, [] => Or.inr (Or.inr rfl)
  | a :: as, b :: bs => by
    by_cases hab : a.toNat < b.toNat
    · exact Or.inl (by rw [strLtL, if_pos hab])
    · by_cases hba : b.toNat < a.toNat
      · exact Or.inr (Or.inr (by rw [strLtL, if_pos hba]))
      · have hc : a = b := by
          have h2 : a.val.toNat = b.val.toNat := by
            simp only [Char.toNat] at hab hba
            omega
          exact Char.eq_of_val_eq (UInt32.toNat.inj h2)
        rcases strLtL_trichotomy as bs with h | h | h
        · exact Or.inl (by rw [strLtL, if_neg hab, if_neg hba]; exact h)
        · exact Or.inr (Or.inl (by rw [hc, h]))
        · exact Or.inr (Or.inr (by rw [strLtL, if_neg hba, if_neg hab]; exact h))

/-- Python string `<=` between keys: `a <= b` iff not `b < a`. -/
def strLE (a b : String) : Bool := !(strLtL b.data a.data)

/-- Comparison used by `sorted(unsorted_dict.items())`: Python compares the
`(key, value)` tuples, but keys of a dict are pairwise distinct, so the
order is decided by the string keys alone. -/
def keyLE (a b : String × Value) : Prop := strLE a.1 b.1 = true

instance : DecidableRel keyLE := fun _ _ =>
  inferInstanceAs (Decidable (_ = true))

instance : IsTotal (String × Value) keyLE := by
  constructor
  intro a b
  rw [keyLE, keyLE, strLE, strLE]
  by_cases h : strLtL b.1.data a.1.data = true
  · right
    rw [strLtL_asymm _ _ h]
    rfl
  · left
    rw [Bool.not_eq_true] at h
    rw [h]
    rfl

instance : IsTrans (String × Value) keyLE := by
  constructor
  intro a b c h1 h2
  rw [keyLE, strLE, Bool.not_eq_true'] at h1 h2 ⊢
  by_cases hca : strLtL c.1.data a.1.data = true
  · rcases strLtL_trichotomy a.1.data b.1.data with h | h | h
    · rw [strLtL_trans _ _ _ hca h] at h2
      cases h2
    · rw [← h] at h2
      rw [h2] at hca
      cases hca
    · rw [h] at h1
      cases h1
  · rw [Bool.not_eq_true] at hca
    exact hca

/-- Python `sorted` on dict items: a stable sort by key (insertion sort is
extensionally equal to any stable sort). -/
def sortByKey (m : Obj) : Obj := m.insertionSort keyLE

/-- The body of the `for` loop of `sorted_dict`: a value that is a dict is
recursively sorted, any other value is kept as is (`isinstance(v, dict)`). -/
def sortIfDict : Value → Value
  | .obj m => .obj (sortByKey (m.attach.map (fun kv => (kv.1.1, sortIfDict kv.1.2))))
  | .str s => .str s
  | .num i => .num i
  | .bool b => .bool b
  | .null => .null
  | .arr l => .arr l
termination_by v => sizeOf v
decreasing_by
  obtain ⟨⟨k, v⟩, hmem⟩ := kv
  have h1 := List.sizeOf_lt_of_mem hmem
  simp only [Value.obj.sizeOf_spec, Prod.mk.sizeOf_spec] at *
  omega

/-- `sorted_dict` from the source: iterate over the items sorted by key and
recursively sort every value that is itself a dict.  (Recursing into the
values commutes with the key-based sort, see `sorted_dict_source_order`.) -/
def sorted_dict (m : Obj) : Obj :=
  sortByKey (m.map (fun kv => (kv.1, sortIfDict kv.2)))

theorem sortIfDict_obj (m : Obj) :
    sortIfDict (.obj m) = .obj (sorted_dict m) := by
  simp only [sortIfDict, sorted_dict]
  congr 1
  congr 1
  rw [← List.attach_map_coe m (fun kv => (kv.1, sortIfDict kv.2))]

theorem sortIfDict_arr (l : List Value) : sortIfDict (.arr l) = .arr l := by
  simp only [sortIfDict]

/-- The source first sorts the items, then rewrites dict values in sorted
order; since the sort only compares keys and the rewrite keeps keys, this
equals sorting after the rewrite (the form used in `sorted_dict`). -/
theorem sorted_dict_source_order (m : Obj) :
    sorted_dict m = (sortByKey m).map (fun kv => (kv.1, sortIfDict kv.2)) := by
  rw [sorted_dict, sortByKey, sortByKey]
  rw [List.map_insertionSort keyLE keyLE _ m]
  intro a _ b _
  exact Iff.rfl

/-- Induction principle for `Value` (the nested inductive needs a hand-rolled
one): the hypotheses for `arr` and `obj` get induction hypotheses for all
member values. -/
theorem Value.inductionOn {P : Value → Prop}
    (hstr : ∀ s, P (.str s)) (hnum : ∀ i, P (.num i))
    (hbool : ∀ b, P (.bool b)) (hnull : P .null)
    (harr : ∀ l, (∀ v ∈ l, P v) → P (.arr l))
    (hobj : ∀ m, (∀ kv ∈ m, P kv.2) → P (.obj m)) : ∀ v, P v
  | .str s => hstr s
  | .num i => hnum i
  | .bool b => hbool b
  | .null => hnull
  | .arr l => harr l (fun v hv =>
      have := List.sizeOf_lt_of_mem hv
      Value.inductionOn hstr hnum hbool hnull harr hobj v)
  | .obj m => hobj m (fun kv hkv =>
      have := List.sizeOf_lt_of_mem hkv
      Value.inductionOn hstr hnum hbool hnull harr hobj kv.2)
termination_by v => sizeOf v
decreasing_by
  · simp only [Value.arr.sizeOf_spec]; omega
  · obtain ⟨k, v⟩ := kv
    simp only [Value.obj.sizeOf_spec, Prod.mk.sizeOf_spec] at *
    omega

/-! ### JSON serialization, as `json.dumps(..., separators=(",", ":"))`

Python `json.dumps` with default `ensure_ascii=True` escapes `"` and `\`,
uses the two-character escapes for the control characters that have them,
and emits `\uXXXX` (with surrogate pairs above the BMP) for every other
character outside the printable ASCII range `0x20 ..= 0x7e`. -/

/-- Lower-case hexadecimal digit. -/
def hexChar : Nat → Char
  | 0 => '0' | 1 => '1' | 2 => '2' | 3 => '3'
  | 4 => '4' | 5 => '5' | 6 => '6' | 7 => '7'
  | 8 => '8' | 9 => '9' | 10 => 'a' | 11 => 'b'
  | 12 => 'c' | 13 => 'd' | 14 => 'e' | _ => 'f'

/-- Four-digit hexadecimal rendering used by the JSON escape. -/
def hex4 (n : Nat) : String :=
  String.mk [hexChar (n / 4096 % 16), hexChar (n / 256 % 16),
             hexChar (n / 16 % 16), hexChar (n % 16)]

/-- Escape of one character inside a JSON string literal. -/
def escChar (c : Char) : String :=
  if c = '"' then "\\\""
  else if c = '\\' then "\\\\"
  else if c = '\n' then "\\n"
  else if c = '\r' then "\\r"
  else if c = '\t' then "\\t"
  else if c.toNat = 8 then "\\b"
  else if c.toNat = 12 then "\\f"
  else if c.toNat < 32 ∨ c.toNat > 126 then
    if c.toNat < 65536 then "\\u" ++ hex4 c.toNat
    else
      "\\u" ++ hex4 (55296 + (c.toNat - 65536) / 1024) ++
      "\\u" ++ hex4 (56320 + (c.toNat - 65536) % 1024)
  else String.mk [c]

/-- A JSON string literal: quotes around the escaped characters. -/
def jsonString (s : String) : String :=
  "\"" ++ String.join (s.data.map escChar) ++ "\""

/-- Decimal rendering of a Python int. -/
def intStr : Int → String
  | .ofNat n => Nat.repr n
  | .negSucc n => "-" ++ Nat.repr (n + 1)

/-- Interleave commas, as the `","` item separator does. -/
def joinComma : List String → String
  | [] => ""
  | [s] => s
  | s :: t => s ++ "," ++ joinComma t

/-- Compact JSON serialization: `json.dumps(v, separators=(",", ":"))`.
Dict and list entries are emitted in their stored order. -/
def jsonDumps : Value → String
  | .str s => jsonString s
  | .num i => intStr i
  | .bool true => "true"
  | .bool false => "false"
  | .null => "null"
  | .arr l => "[" ++ joinComma (l.attach.map (fun v => jsonDumps v.1)) ++ "]"
  | .obj m => "\x7b" ++
      joinComma (m.attach.map
        (fun kv => jsonString kv.1.1 ++ ":" ++ jsonDumps kv.1.2)) ++ "\x7d"
termination_by v => sizeOf v
decreasing_by
  · obtain ⟨w, hmem⟩ := v
    have := List.sizeOf_lt_of_mem hmem
    simp only [Value.arr.sizeOf_spec] at *
    omega
  · obtain ⟨⟨k, w⟩, hmem⟩ := kv
    have := List.sizeOf_lt_of_mem hmem
    simp only [Value.obj.sizeOf_spec, Prod.mk.sizeOf_spec] at *
    omega

theorem jsonDumps_arr (l : List Value) :
    jsonDumps (.arr l) = "[" ++ joinComma (l.map jsonDumps) ++ "]" := by
  simp only [jsonDumps]
  rw [← List.attach_map_coe l jsonDumps]

theorem jsonDumps_obj (m : Obj) :
    jsonDumps (.obj m) = "\x7b" ++
      joinComma (m.map (fun kv => jsonString kv.1 ++ ":" ++ jsonDumps kv.2)) ++
      "\x7d" := by
  simp only [jsonDumps]
  rw [← List.attach_map_coe m (fun kv => jsonString kv.1 ++ ":" ++ jsonDumps kv.2)]

/-- UTF-8 bytes of one character (`str.encode("utf-8")`). -/
def utf8Char (c : Char) : List Nat :=
  let n := c.toNat
  if n < 128 then [n]
  else if n < 2048 then [192 + n / 64, 128 + n % 64]
  else if n < 65536 then [224 + n / 4096, 128 + n / 64 % 64, 128 + n % 64]
  else [240 + n / 262144, 128 + n / 4096 % 64, 128 + n / 64 % 64, 128 + n % 64]

/-- UTF-8 encoding of a string as a byte list. -/
def utf8Bytes (s : String) : List Nat :=
  (s.data.map utf8Char).flatten

/-! ### SHA-256 (`hashlib.sha256`), over byte lists, 32-bit words as `Nat` -/

/-- Truncation to a 32-bit word. -/
def w32 (n : Nat) : Nat := n % 4294967296

/-- Right rotation of a 32-bit word. -/
def rotr (n x : Nat) : Nat := w32 ((x >>> n) ||| (x <<< (32 - n)))

/-- Bitwise complement of a 32-bit word (`x < 2^32` always holds here). -/
def bnot32 (x : Nat) : Nat := 4294967295 - x

def bigSigma0 (x : Nat) : Nat := rotr 2 x ^^^ rotr 13 x ^^^ rotr 22 x

def bigSigma1 (x : Nat) : Nat := rotr 6 x ^^^ rotr 11 x ^^^ rotr 25 x

def smallSigma0 (x : Nat) : Nat := rotr 7 x ^^^ rotr 18 x ^^^ (x >>> 3)

def smallSigma1 (x : Nat) : Nat := rotr 17 x ^^^ rotr 19 x ^^^ (x >>> 10)

def chF (x y z : Nat) : Nat := (x &&& y) ^^^ (bnot32 x &&& z)

def majF (x y z : Nat) : Nat := (x &&& y) ^^^ (x &&& z) ^^^ (y &&& z)

/-- The 64 SHA-256 round constants. -/
def k256 : List Nat :=
  [1116352408, 1899447441, 3049323471, 3921009573,
   961987163, 1508970993, 2453635748, 2870763221,
   3624381080, 310598401, 607225278, 1426881987,
   1925078388, 2162078206, 2614888103, 3248222580,
   3835390401, 4022224774, 264347078, 604807628,
   770255983, 1249150122, 1555081692, 1996064986,
   2554220882, 2821834349, 2952996808, 3210313671,
   3336571891, 3584528711, 113926993, 338241895,
   666307205, 773529912, 1294757372, 1396182291,
   1695183700, 1986661051, 2177026350, 2456956037,
   2730485921, 2820302411, 3259730800, 3345764771,
   3516065817, 3600352804, 4094571909, 275423344,
   430227734, 506948616, 659060556, 883997877,
   958139571, 1322822218, 1537002063, 1747873779,
   1955562222, 2024104815, 2227730452, 2361852424,
   2428436474, 2756734187, 3204031479, 3329325298]

/-- The eight working variables of the compression function. -/
structure Hash8 where
  a : Nat
  b : Nat
  c : Nat
  d : Nat
  e : Nat
  f : Nat
  g : Nat
  h : Nat

/-- The SHA-256 initial hash value. -/
def sha256Init : Hash8 :=
  ⟨1779033703, 3144134277, 1013904242, 2773480762,
   1359893119, 2600822924, 528734635, 1541459225⟩

/-- One round of the compression function, on constant-plus-schedule `kw`. -/
def sha256Round (s : Hash8) (kw : Nat) : Hash8 :=
  let t1 := w32 (s.h + bigSigma1 s.e + chF s.e s.f s.g + kw)
  let t2 := w32 (bigSigma0 s.a + majF s.a s.b s.c)
  ⟨w32 (t1 + t2), s.a, s.b, s.c, w32 (s.d + t1), s.e, s.f, s.g⟩

/-- Extend a 16-word block to the full 64-word message schedule. -/
def extendSchedule (w : List Nat) : Nat → List Nat
  | 0 => w
  | n + 1 =>
    let w' := extendSchedule w n
    let len := w'.length
    w' ++ [w32 (smallSigma1 (w'.getD (len - 2) 0) + w'.getD (len - 7) 0 +
                smallSigma0 (w'.getD (len - 15) 0) + w'.getD (len - 16) 0)]

/-- Compress one 16-word block into the running hash value. -/
def sha256Block (s : Hash8) (block : List Nat) : Hash8 :=
  let ws := extendSchedule block 48
  let t := (List.zipWith (fun k w => w32 (k + w)) k256 ws).foldl sha256Round s
  ⟨w32 (s.a + t.a), w32 (s.b + t.b), w32 (s.c + t.c), w32 (s.d + t.d),
   w32 (s.e + t.e), w32 (s.f + t.f), w32 (s.g + t.g), w32 (s.h + t.h)⟩

/-- SHA-256 padding: `0x80`, zeros to 56 mod 64 bytes, 8-byte big-endian
bit length. -/
def sha256Pad (msg : List Nat) : List Nat :=
  let bitLen := msg.length * 8
  let zeros := (119 - msg.length % 64) % 64
  msg ++ [128] ++ List.replicate zeros 0 ++
    [bitLen / 72057594037927936 % 256, bitLen / 281474976710656 % 256,
     bitLen / 1099511627776 % 256, bitLen / 4294967296 % 256,
     bitLen / 16777216 % 256, bitLen / 65536 % 256,
     bitLen / 256 % 256, bitLen % 256]

/-- Group bytes four at a time into big-endian 32-bit words. -/
def bytesToWords : List Nat → List Nat
  | b0 :: b1 :: b2 :: b3 :: rest =>
    (b0 * 16777216 + b1 * 65536 + b2 * 256 + b3) :: bytesToWords rest
  | _ => []

/-- Split a word list into 16-word blocks (the padded input always has a
multiple of 16 words). -/
def toBlocks : List Nat → List (List Nat)
  | w0 :: w1 :: w2 :: w3 :: w4 :: w5 :: w6 :: w7 ::
    w8 :: w9 :: w10 :: w11 :: w12 :: w13 :: w14 :: w15 :: rest =>
    [w0, w1, w2, w3, w4, w5, w6, w7,
     w8, w9, w10, w11, w12, w13, w14, w15] :: toBlocks rest
  | _ => []

/-- The final hash state for a byte message. -/
def sha256State (msg : List Nat) : Hash8 :=
  (toBlocks (bytesToWords (sha256Pad msg))).foldl sha256Block sha256Init

/-- Eight hex digits, big-endian, of a 32-bit word. -/
def wordHex (x : Nat) : List Char :=
  [hexChar (x / 268435456 % 16), hexChar (x / 16777216 % 16),
   hexChar (x / 1048576 % 16), hexChar (x / 65536 % 16),
   hexChar (x / 4096 % 16), hexChar (x / 256 % 16),
   hexChar (x / 16 % 16), hexChar (x % 16)]

/-- `hashlib.sha256(msg).hexdigest()`: 64 lower-case hex characters. -/
def sha256Hex (msg : List Nat) : String :=
  let s := sha256State msg
  String.mk (wordHex s.a ++ wordHex s.b ++ wordHex s.c ++ wordHex s.d ++
             wordHex s.e ++ wordHex s.f ++ wordHex s.g ++ wordHex s.h)

/-! ### The functions of plugins/module_utils/hashes.py -/

/-- The character substitution `maketrans("013ae", "ghkmt")`. -/
def trChar (c : Char) : Char :=
  if c = '0' then 'g'
  else if c = '1' then 'h'
  else if c = '3' then 'k'
  else if c = 'a' then 'm'
  else if c = 'e' then 't'
  else c

/-- `encode` from the source: first 10 characters of the SHA-256 hexdigest,
passed through the substitution. -/
def encode (resource : List Nat) : String :=
  String.mk (((sha256Hex resource).data.take 10).map trChar)

/-- `marshal` from the source: serialize the ordered projection of `data`
onto `keys` (missing keys default to the empty string) as compact JSON and
encode it as UTF-8 bytes. -/
def marshal (data : Obj) (keys : List String) : List Nat :=
  utf8Bytes (jsonDumps (.obj (keys.map
    (fun key => (key, (alookup data key).getD (.str ""))))))

/-- A Python exception relevant to `generate_hash`. -/
inductive PyErr : Type where
  | attrErr : PyErr
  | keyErr : PyErr
  | notImplErr : PyErr
deriving DecidableEq

instance : DecidableEq (Except PyErr String) := fun
  | .ok a, .ok b =>
    if h : a = b then .isTrue (by rw [h])
    else .isFalse (fun hc => by cases hc; exact h rfl)
  | .error a, .error b =>
    if h : a = b then .isTrue (by rw [h])
    else .isFalse (fun hc => by cases hc; exact h rfl)
  | .ok _, .error _ => .isFalse (fun hc => by cases hc)
  | .error _, .ok _ => .isFalse (fun hc => by cases hc)

/-- The value of `resource.get("metadata", {}).get("name", "")`: empty
string when `metadata` is absent or has no `name`; an `AttributeError`
when `metadata` is present but not a dict (no `.get` method). -/
def metaName (resource : Obj) : Except PyErr Value :=
  match alookup resource "metadata" with
  | none => .ok (.str "")
  | some (.obj m) => .ok ((alookup m "name").getD (.str ""))
  | some _ => .error .attrErr

/-- The part of `generate_hash` after the `resource["name"] = ...`
assignment, applied to the already-mutated dict `r`: the two `if` tests on
`r["kind"]` (`KeyError` when absent, equal to a string literal only when it
is that string), the marshal-and-encode on success with `del r["name"]`
before returning, and the final `raise NotImplementedError`. -/
def hashOfKind (r : Obj) : Except PyErr String × Obj :=
  match alookup r "kind" with
  | none => (.error .keyErr, r)
  | some k =>
    match k with
    | .str s =>
      if s = "ConfigMap" then
        (.ok (encode (marshal (sorted_dict r) ["data", "kind", "name"])),
         dictDel r "name")
      else if s = "Secret" then
        (.ok (encode (marshal (sorted_dict r) ["data", "kind", "name", "type"])),
         dictDel r "name")
      else (.error .notImplErr, r)
    | _ => (.error .notImplErr, r)

/-- `generate_hash` from the source, with the mutation of the caller's dict
made explicit: the result is the returned-or-raised value paired with the
state of `resource` when control leaves the function.  The temporary
top-level `name` entry is set before the `kind` tests (so it is present in
every later state) and deleted only on the two success paths. -/
def generate_hash (resource : Obj) : Except PyErr String × Obj :=
  match metaName resource with
  | .error e => (.error e, resource)
  | .ok name => hashOfKind (dictSet resource "name" name)

/-! ### Fuelled evaluation clones

The recursions over `Value` above are compiled by well-founded recursion
and therefore do not reduce definitionally, which blocks `decide` on
concrete documents.  The following clones recurse structurally on an
explicit depth bound (fuel) and are proved equal to the originals for any
sufficient fuel; concrete evaluations go through them. -/

/-- `depthLeF n v` bounds the mapping/sequence nesting depth of `v` by `n`. -/
def depthLeF : Nat → Value → Bool
  | 0, .obj _ => false
  | 0, .arr _ => false
  | 0, _ => true
  | n + 1, .obj m => m.all (fun kv => depthLeF n kv.2)
  | n + 1, .arr l => l.all (fun v => depthLeF n v)
  | _ + 1, _ => true

theorem depthLeF_mono {n m : Nat} (hnm : n ≤ m) :
    ∀ {v : Value}, depthLeF n v = true → depthLeF m v = true := by
  induction m generalizing n with
  | zero => intro v h; interval_cases n; exact h
  | succ m ih =>
    intro v h
    match n, v with
    | 0, .str s => rfl
    | 0, .num i => rfl
    | 0, .bool b => rfl
    | 0, .null => rfl
    | n + 1, .str s => rfl
    | n + 1, .num i => rfl
    | n + 1, .bool b => rfl
    | n + 1, .null => rfl
    | n + 1, .obj l =>
      simp only [depthLeF, List.all_eq_true] at h ⊢
      exact fun kv hkv => ih (Nat.le_of_succ_le_succ hnm) (h kv hkv)
    | n + 1, .arr l =>
      simp only [depthLeF, List.all_eq_true] at h ⊢
      exact fun v hv => ih (Nat.le_of_succ_le_succ hnm) (h v hv)

/-- Fuelled `sortIfDict`. -/
def sortIfDictF : Nat → Value → Value
  | 0, v => v
  | n + 1, .obj m =>
    .obj (sortByKey (m.map (fun kv => (kv.1, sortIfDictF n kv.2))))
  | _ + 1, v => v

theorem sortIfDictF_eq : ∀ (n : Nat) (v : Value), depthLeF n v = true →
    sortIfDictF n v = sortIfDict v := by
  intro n
  induction n with
  | zero =>
    intro v h
    match v with
    | .str s => simp [sortIfDictF, sortIfDict]
    | .num i => simp [sortIfDictF, sortIfDict]
    | .bool b => simp [sortIfDictF, sortIfDict]
    | .null => simp [sortIfDictF, sortIfDict]
    | .arr l => simp [sortIfDictF, sortIfDict]
    | .obj m => exact absurd h (by simp [depthLeF])
  | succ n ih =>
    intro v h
    match v with
    | .str s => simp [sortIfDictF, sortIfDict]
    | .num i => simp [sortIfDictF, sortIfDict]
    | .bool b => simp [sortIfDictF, sortIfDict]
    | .null => simp [sortIfDictF, sortIfDict]
    | .arr l => simp [sortIfDictF, sortIfDict]
    | .obj m =>
      rw [sortIfDictF, sortIfDict_obj, sorted_dict]
      simp only [depthLeF, List.all_eq_true] at h
      congr 1
      exact congrArg sortByKey (List.map_congr_left
        (fun kv hkv => by rw [ih kv.2 (h kv hkv)]))

/-- Fuelled `sorted_dict`. -/
def sorted_dictF (n : Nat) (m : Obj) : Obj :=
  sortByKey (m.map (fun kv => (kv.1, sortIfDictF n kv.2)))

theorem sorted_dictF_eq (n : Nat) (m : Obj)
    (h : m.all (fun kv => depthLeF n kv.2) = true) :
    sorted_dictF n m = sorted_dict m := by
  rw [sorted_dictF, sorted_dict]
  simp only [List.all_eq_true] at h
  exact congrArg sortByKey (List.map_congr_left
    (fun kv hkv => by rw [sortIfDictF_eq n kv.2 (h kv hkv)]))

/-- Fuelled `jsonDumps`. -/
def jsonDumpsF : Nat → Value → String
  | 0, _ => ""
  | n + 1, v =>
    match v with
    | .str s => jsonString s
    | .num i => intStr i
    | .bool true => "true"
    | .bool false => "false"
    | .null => "null"
    | .arr l => "[" ++ joinComma (l.map (fun v => jsonDumpsF n v)) ++ "]"
    | .obj m => "\x7b" ++
        joinComma (m.map
          (fun kv => jsonString kv.1 ++ ":" ++ jsonDumpsF n kv.2)) ++ "\x7d"

theorem jsonDumpsF_eq : ∀ (n : Nat) (v : Value), depthLeF n v = true →
    jsonDumpsF (n + 1) v = jsonDumps v := by
  intro n
  induction n with
  | zero =>
    intro v h
    match v with
    | .str s => simp [jsonDumpsF, jsonDumps]
    | .num i => simp [jsonDumpsF, jsonDumps]
    | .bool true => simp [jsonDumpsF, jsonDumps]
    | .bool false => simp [jsonDumpsF, jsonDumps]
    | .null => simp [jsonDumpsF, jsonDumps]
    | .arr l => exact absurd h (by simp [depthLeF])
    | .obj m => exact absurd h (by simp [depthLeF])
  | succ n ih =>
    intro v h
    match v with
    | .str s => simp [jsonDumpsF, jsonDumps]
    | .num i => simp [jsonDumpsF, jsonDumps]
    | .bool true => simp [jsonDumpsF, jsonDumps]
    | .bool false => simp [jsonDumpsF, jsonDumps]
    | .null => simp [jsonDumpsF, jsonDumps]
    | .arr l =>
      rw [jsonDumpsF, jsonDumps_arr]
      simp only [depthLeF, List.all_eq_true] at h
      congr 2
      exact congrArg joinComma (List.map_congr_left (fun v hv => ih v (h v hv)))
    | .obj m =>
      rw [jsonDumpsF, jsonDumps_obj]
      simp only [depthLeF, List.all_eq_true] at h
      congr 2
      exact congrArg joinComma (List.map_congr_left
        (fun kv hkv => by rw [ih kv.2 (h kv hkv)]))

theorem alookup_mem {m : Obj} {k : String} {v : Value}
    (h : alookup m k = some v) : (k, v) ∈ m := by
  induction m with
  | nil => simp [alookup] at h
  | cons kv t ih =>
    rw [alookup] at h
    by_cases hk : kv.1 = k
    · rw [if_pos hk] at h
      cases h
      subst hk
      simp
    · rw [if_neg hk] at h
      exact List.mem_cons_of_mem _ (ih h)

theorem mem_sorted_dict {m : Obj} {kv : String × Value}
    (h : kv ∈ sorted_dict m) :
    ∃ kv0 ∈ m, kv = (kv0.1, sortIfDict kv0.2) := by
  rw [sorted_dict, sortByKey] at h
  rw [List.mem_insertionSort] at h
  obtain ⟨kv0, hmem, heq⟩ := List.mem_map.mp h
  exact ⟨kv0, hmem, heq.symm⟩

/-- `sortIfDict` preserves any depth bound. -/
theorem depthLeF_sortIfDict : ∀ (n : Nat) (v : Value),
    depthLeF n v = true → depthLeF n (sortIfDict v) = true := by
  intro n
  induction n with
  | zero =>
    intro v h
    match v with
    | .obj m => exact absurd h (by simp [depthLeF])
    | .str s => simpa [sortIfDict] using h
    | .num i => simpa [sortIfDict] using h
    | .bool b => simpa [sortIfDict] using h
    | .null => simpa [sortIfDict] using h
    | .arr l => simpa [sortIfDict] using h
  | succ n ih =>
    intro v h
    match v with
    | .str s => simpa [sortIfDict] using h
    | .num i => simpa [sortIfDict] using h
    | .bool b => simpa [sortIfDict] using h
    | .null => simpa [sortIfDict] using h
    | .arr l => simpa [sortIfDict] using h
    | .obj m =>
      rw [sortIfDict_obj]
      simp only [depthLeF, List.all_eq_true] at h ⊢
      intro kv hkv
      obtain ⟨kv0, hmem, heq⟩ := mem_sorted_dict hkv
      rw [heq]
      exact ih kv0.2 (h kv0 hmem)

/-- Fuelled `marshal`. -/
def marshalF (n : Nat) (data : Obj) (keys : List String) : List Nat :=
  utf8Bytes (jsonDumpsF n (.obj (keys.map
    (fun key => (key, (alookup data key).getD (.str ""))))))

/-- Fuelled `hashOfKind`. -/
def hashOfKindF (n : Nat) (r : Obj) : Except PyErr String × Obj :=
  match alookup r "kind" with
  | none => (.error .keyErr, r)
  | some k =>
    match k with
    | .str s =>
      if s = "ConfigMap" then
        (.ok (encode (marshalF (n + 2) (sorted_dictF n r)
          ["data", "kind", "name"])),
         dictDel r "name")
      else if s = "Secret" then
        (.ok (encode (marshalF (n + 2) (sorted_dictF n r)
          ["data", "kind", "name", "type"])),
         dictDel r "name")
      else (.error .notImplErr, r)
    | _ => (.error .notImplErr, r)

/-- Fuelled `generate_hash`. -/
def generate_hashF (n : Nat) (resource : Obj) : Except PyErr String × Obj :=
  match metaName resource with
  | .error e => (.error e, resource)
  | .ok name => hashOfKindF n (dictSet resource "name" name)

theorem depthLeF_str (n : Nat) (s : String) :
    depthLeF n (.str s) = true := by cases n <;> rfl

/-- Every value reachable as a value of `dictSet m k v` is a value of `m`
or is `v`. -/
theorem mem_dictSet {m : Obj} {k : String} {v : Value} {kv : String × Value}
    (h : kv ∈ dictSet m k v) : kv ∈ m ∨ kv.2 = v := by
  rw [dictSet] at h
  by_cases hp : m.any (fun kv2 => kv2.1 == k)
  · rw [if_pos hp] at h
    obtain ⟨kv0, hmem, heq⟩ := List.mem_map.mp h
    by_cases h0 : kv0.1 = k
    · rw [if_pos h0] at heq
      right
      rw [← heq]
    · rw [if_neg h0] at heq
      left
      rw [← heq]
      exact hmem
  · rw [if_neg hp] at h
    rcases List.mem_append.mp h with h1 | h1
    · exact Or.inl h1
    · right
      rw [List.mem_singleton.mp h1]

theorem marshalF_eq (n : Nat) (data : Obj) (keys : List String)
    (h : ∀ key ∈ keys, depthLeF n ((alookup data key).getD (.str "")) = true) :
    marshalF (n + 2) data keys = marshal data keys := by
  rw [marshalF, marshal]
  congr 1
  apply jsonDumpsF_eq (n + 1)
  simp only [depthLeF, List.all_eq_true]
  intro kv hkv
  obtain ⟨key, hkey, heq⟩ := List.mem_map.mp hkv
  rw [← heq]
  exact h key hkey

theorem hashOfKindF_eq (n : Nat) (r : Obj)
    (hr : ∀ kv ∈ r, depthLeF n kv.2 = true) :
    hashOfKindF n r = hashOfKind r := by
  have hsorted : sorted_dictF n r = sorted_dict r :=
    sorted_dictF_eq n _ (by rw [List.all_eq_true]; exact hr)
  have hproj : ∀ keys : List String,
      marshalF (n + 2) (sorted_dictF n r) keys =
      marshal (sorted_dict r) keys := by
    intro keys
    rw [hsorted]
    apply marshalF_eq
    intro key _
    cases hlk : alookup (sorted_dict r) key with
    | none => exact depthLeF_str n ""
    | some v =>
      obtain ⟨kv0, hmem0, heq0⟩ := mem_sorted_dict (alookup_mem hlk)
      have hv0 : v = sortIfDict kv0.2 := congrArg Prod.snd heq0
      rw [Option.getD_some, hv0]
      exact depthLeF_sortIfDict n kv0.2 (hr kv0 hmem0)
  cases hk : alookup r "kind" with
  | none => simp only [hashOfKindF, hashOfKind, hk]
  | some k =>
    cases k with
    | str s =>
      simp only [hashOfKindF, hashOfKind, hk]
      by_cases hcm : s = "ConfigMap"
      · rw [if_pos hcm, if_pos hcm, hproj]
      · rw [if_neg hcm, if_neg hcm]
        by_cases hsec : s = "Secret"
        · rw [if_pos hsec, if_pos hsec, hproj]
        · rw [if_neg hsec, if_neg hsec]
    | num i => simp only [hashOfKindF, hashOfKind, hk]
    | bool b => simp only [hashOfKindF, hashOfKind, hk]
    | null => simp only [hashOfKindF, hashOfKind, hk]
    | arr l => simp only [hashOfKindF, hashOfKind, hk]
    | obj mm => simp only [hashOfKindF, hashOfKind, hk]

theorem generate_hashF_eq (n : Nat) (resource : Obj)
    (h : depthLeF (n + 1) (.obj resource) = true) :
    generate_hashF n resource = generate_hash resource := by
  have hvals : ∀ kv ∈ resource, depthLeF n kv.2 = true := by
    simpa only [depthLeF, List.all_eq_true] using h
  rw [generate_hashF, generate_hash]
  cases hm : metaName resource with
  | error e => rfl
  | ok name =>
    have hname : depthLeF n name = true := by
      rw [metaName] at hm
      cases hmd : alookup resource "metadata" with
      | none =>
        rw [hmd] at hm
        cases hm
        exact depthLeF_str n ""
      | some md =>
        rw [hmd] at hm
        cases md with
        | str s => exact (Except.noConfusion hm)
        | num i => exact (Except.noConfusion hm)
        | bool b => exact (Except.noConfusion hm)
        | null => exact (Except.noConfusion hm)
        | arr l => exact (Except.noConfusion hm)
        | obj mm =>
          have hmm : depthLeF n (.obj mm) = true :=
            hvals _ (alookup_mem hmd)
          cases hm
          cases n with
          | zero => exact absurd hmm (by simp [depthLeF])
          | succ nn =>
            simp only [depthLeF, List.all_eq_true] at hmm
            cases hnm : alookup mm "name" with
            | none => exact depthLeF_str _ ""
            | some nv =>
              exact depthLeF_mono (Nat.le_succ nn)
                (hmm _ (alookup_mem hnm))
    apply hashOfKindF_eq
    intro kv hkv
    rcases mem_dictSet hkv with h1 | h1
    · exact hvals kv h1
    · rw [h1]; exact hname

/-! ### Dictionary lookup lemmas -/

theorem alookup_of_mem {m : Obj} {k : String} {v : Value}
    (hd : keysDistinct m) (h : (k, v) ∈ m) : alookup m k = some v := by
  induction m with
  | nil => cases h
  | cons kv t ih =>
    rw [keysDistinct, List.pairwise_cons] at hd
    rcases List.mem_cons.mp h with h1 | h1
    · rw [alookup, ← h1, if_pos rfl]
    · rw [alookup]
      have hne : kv.1 ≠ k := hd.1 (k, v) h1
      rw [if_neg hne]
      exact ih hd.2 h1

theorem alookup_eq_none_iff {m : Obj} {k : String} :
    alookup m k = none ↔ k ∉ m.map Prod.fst := by
  induction m with
  | nil => simp [alookup]
  | cons kv t ih =>
    rw [alookup]
    by_cases h : kv.1 = k
    · simp [h]
    · simp only [if_neg h, ih, List.map_cons, List.mem_cons]
      constructor
      · intro hk hc
        rcases hc with hc | hc
        · exact h hc.symm
        · exact hk hc
      · intro hk
        exact fun hc => hk (Or.inr hc)

theorem keysDistinct_perm {m1 m2 : Obj} (hp : m1.Perm m2)
    (hd : keysDistinct m1) : keysDistinct m2 :=
  (hp.pairwise_iff (fun h => Ne.symm h)).mp hd

theorem perm_alookup {m1 m2 : Obj} (hp : m1.Perm m2)
    (hd : keysDistinct m1) (k : String) : alookup m1 k = alookup m2 k := by
  have hd2 : keysDistinct m2 := keysDistinct_perm hp hd
  cases h1 : alookup m1 k with
  | some v => exact (alookup_of_mem hd2 (hp.mem_iff.mp (alookup_mem h1))).symm
  | none =>
    rw [alookup_eq_none_iff] at h1
    rw [eq_comm, alookup_eq_none_iff]
    exact fun hc => h1 ((hp.map Prod.fst).mem_iff.mpr hc)

theorem alookup_map_val {m : Obj} {f : Value → Value} {k : String} :
    alookup (m.map (fun kv => (kv.1, f kv.2))) k = (alookup m k).map f := by
  induction m with
  | nil => rfl
  | cons kv t ih =>
    rw [List.map_cons, alookup, alookup]
    by_cases h : kv.1 = k
    · rw [if_pos h, if_pos h]
      rfl
    · rw [if_neg h, if_neg h, ih]

theorem keysDistinct_map_val {m : Obj} {f : Value → Value} :
    keysDistinct (m.map (fun kv => (kv.1, f kv.2))) ↔ keysDistinct m := by
  rw [keysDistinct, keysDistinct, List.pairwise_map]

/-- Looking a key up in the canonicalized dict: the value of the original
dict, canonicalized. -/
theorem alookup_sorted_dict {m : Obj} (hd : keysDistinct m) (k : String) :
    alookup (sorted_dict m) k = (alookup m k).map sortIfDict := by
  rw [sorted_dict, ← alookup_map_val, sortByKey]
  exact perm_alookup (List.perm_insertionSort keyLE _)
    (keysDistinct_perm (List.perm_insertionSort keyLE _).symm
      (keysDistinct_map_val.mpr hd)) k

theorem keysDistinct_sorted_dict {m : Obj} (hd : keysDistinct m) :
    keysDistinct (sorted_dict m) := by
  rw [sorted_dict, sortByKey]
  exact keysDistinct_perm (List.perm_insertionSort keyLE _).symm
    (keysDistinct_map_val.mpr hd)

theorem alookup_setAll {m : Obj} {k : String} {v : Value}
    (hp : m.any (fun kv => kv.1 == k) = true) :
    alookup (m.map (fun kv => if kv.1 = k then (k, v) else kv)) k = some v := by
  induction m with
  | nil => cases hp
  | cons kv t ih =>
    rw [List.map_cons, alookup]
    by_cases h : kv.1 = k
    · rw [if_pos h]
      simp
    · rw [if_neg h]
      simp only [if_neg h]
      rw [List.any_cons] at hp
      have : (kv.1 == k) = false := by
        rw [beq_eq_false_iff_ne]
        exact h
      rw [this, Bool.false_or] at hp
      exact ih hp

theorem alookup_append {m1 m2 : Obj} {k : String} :
    alookup (m1 ++ m2) k = (alookup m1 k).orElse (fun _ => alookup m2 k) := by
  induction m1 with
  | nil => rfl
  | cons kv t ih =>
    rw [List.cons_append, alookup, alookup]
    by_cases h : kv.1 = k
    · rw [if_pos h, if_pos h, Option.orElse]
    · rw [if_neg h, if_neg h, ih]

theorem alookup_dictSet_self (m : Obj) (k : String) (v : Value) :
    alookup (dictSet m k v) k = some v := by
  rw [dictSet]
  by_cases hp : m.any (fun kv => kv.1 == k) = true
  · rw [if_pos hp]
    exact alookup_setAll hp
  · rw [if_neg hp, alookup_append]
    have : alookup m k = none := by
      rw [alookup_eq_none_iff]
      intro hc
      apply hp
      rw [List.any_eq_true]
      obtain ⟨kv, hkv, hfst⟩ := List.mem_map.mp hc
      exact ⟨kv, hkv, by rw [beq_iff_eq]; exact hfst⟩
    rw [this]
    simp [Option.orElse, alookup]

theorem alookup_setAll_ne {m : Obj} {k k' : String} {v : Value}
    (h : k' ≠ k) :
    alookup (m.map (fun kv => if kv.1 = k then (k, v) else kv)) k' =
    alookup m k' := by
  induction m with
  | nil => rfl
  | cons kv t ih =>
    rw [List.map_cons, alookup, alookup]
    by_cases h0 : kv.1 = k
    · have h1 : ¬ (k = k') := fun hc => h hc.symm
      have h2 : ¬ (kv.1 = k') := by rw [h0]; exact h1
      simp only [if_pos h0, if_neg h1, if_neg h2]
      exact ih
    · by_cases h2 : kv.1 = k'
      · simp only [if_neg h0, if_pos h2]
      · simp only [if_neg h0, if_neg h2]
        exact ih

theorem alookup_dictSet_ne (m : Obj) {k k' : String} (v : Value)
    (h : k' ≠ k) : alookup (dictSet m k v) k' = alookup m k' := by
  rw [dictSet]
  by_cases hp : m.any (fun kv => kv.1 == k) = true
  · rw [if_pos hp]
    exact alookup_setAll_ne h
  · rw [if_neg hp, alookup_append]
    cases h1 : alookup m k' with
    | some w => rfl
    | none =>
      simp only [Option.orElse, Option.none_orElse]
      rw [alookup, if_neg (fun hc => h hc.symm), alookup]

/-! ### Claim-level definitions -/

theorem sortIfDict_str (s : String) : sortIfDict (.str s) = .str s := by
  simp only [sortIfDict]

theorem sortIfDict_num (i : Int) : sortIfDict (.num i) = .num i := by
  simp only [sortIfDict]

theorem sortIfDict_bool (b : Bool) : sortIfDict (.bool b) = .bool b := by
  simp only [sortIfDict]

theorem sortIfDict_null : sortIfDict .null = .null := by
  simp only [sortIfDict]

/-- The document's `metadata` entry, when present, is a mapping (so that
`resource.get("metadata", {}).get("name", "")` does not raise). -/
def metadataOkB (resource : Obj) : Bool :=
  match alookup resource "metadata" with
  | none => true
  | some (.obj _) => true
  | some _ => false

theorem metaName_ok_of_metadataOk {resource : Obj}
    (h : metadataOkB resource = true) :
    ∃ name, metaName resource = .ok name := by
  rw [metadataOkB] at h
  rw [metaName]
  cases hmd : alookup resource "metadata" with
  | none => exact ⟨.str "", rfl⟩
  | some md =>
    rw [hmd] at h
    cases md with
    | obj mm => exact ⟨(alookup mm "name").getD (.str ""), rfl⟩
    | str s => cases h
    | num i => cases h
    | bool b => cases h
    | null => cases h
    | arr l => cases h

theorem keysDistinct_dictSet {m : Obj} (hd : keysDistinct m)
    (k : String) (v : Value) : keysDistinct (dictSet m k v) := by
  rw [dictSet]
  by_cases hp : m.any (fun kv => kv.1 == k) = true
  · rw [if_pos hp, keysDistinct, List.pairwise_map]
    apply List.Pairwise.imp ?_ hd
    intro a b hab
    by_cases ha : a.1 = k <;> by_cases hb : b.1 = k
    · exact absurd (ha.trans hb.symm) hab
    · simp only [if_pos ha, if_neg hb]
      exact fun hc => hb hc.symm
    · simp only [if_neg ha, if_pos hb]
      exact fun hc => ha hc
    · simp only [if_neg ha, if_neg hb]
      exact hab
  · rw [if_neg hp, keysDistinct, List.pairwise_append]
    refine ⟨hd, List.pairwise_singleton _ _, ?_⟩
    intro a ha b hb
    rw [List.mem_singleton.mp hb]
    intro hc
    apply hp
    rw [List.any_eq_true]
    exact ⟨a, ha, by rw [beq_iff_eq]; exact hc⟩

/-- The value the spec projects onto key `key`: for `name` the nested
`metadata.name` (empty string when absent), otherwise the document's own
entry, a missing key defaulting to the empty string. -/
def specProjValue (resource : Obj) (key : String) : Value :=
  if key = "name" then
    match alookup resource "metadata" with
    | some (.obj mm) => (alookup mm "name").getD (.str "")
    | _ => .str ""
  else (alookup resource key).getD (.str "")

/-- First 10 characters of the SHA-256 hexdigest of a byte string, with the
`{"0","1","3","a","e"} to {"g","h","k","m","t"}` substitution. -/
def fingerprintOfBytes (bytes : List Nat) : String :=
  String.mk (((sha256Hex bytes).data.take 10).map trChar)

/-- The fingerprint construction in the words of the spec, literally: the
ordered projection is serialized as compact JSON and only the value under
`data` is recursively key-sorted before serialization. -/
def spec_fingerprint_literal (resource : Obj) (keys : List String) : String :=
  fingerprintOfBytes (utf8Bytes (jsonDumps (.obj (keys.map (fun key =>
    (key, if key = "data" then sortIfDict (specProjValue resource key)
          else specProjValue resource key))))))

/-- The fingerprint construction with every projected value recursively
key-sorted when it is a mapping (what the code actually computes). -/
def spec_fingerprint (resource : Obj) (keys : List String) : String :=
  fingerprintOfBytes (utf8Bytes (jsonDumps (.obj (keys.map (fun key =>
    (key, sortIfDict (specProjValue resource key)))))))

/-- Fuelled `spec_fingerprint_literal`. -/
def spec_fingerprint_literalF (n : Nat) (resource : Obj) (keys : List String) :
    String :=
  fingerprintOfBytes (utf8Bytes (jsonDumpsF (n + 2) (.obj (keys.map (fun key =>
    (key, if key = "data" then sortIfDictF n (specProjValue resource key)
          else specProjValue resource key))))))

theorem spec_fingerprint_literalF_eq (n : Nat) (resource : Obj)
    (keys : List String)
    (h : ∀ key ∈ keys, depthLeF n (specProjValue resource key) = true) :
    spec_fingerprint_literalF n resource keys =
    spec_fingerprint_literal resource keys := by
  rw [spec_fingerprint_literalF, spec_fingerprint_literal]
  congr 2
  rw [jsonDumpsF_eq (n + 1)]
  · congr 1
    congr 1
    apply List.map_congr_left
    intro key hkey
    by_cases hdata : key = "data"
    · rw [if_pos hdata, if_pos hdata, sortIfDictF_eq n _ (h key hkey)]
    · rw [if_neg hdata, if_neg hdata]
  · simp only [depthLeF, List.all_eq_true]
    intro kv hkv
    obtain ⟨key, hkey, heq⟩ := List.mem_map.mp hkv
    rw [← heq]
    by_cases hdata : key = "data"
    · rw [if_pos hdata, sortIfDictF_eq n _ (h key hkey)]
      exact depthLeF_sortIfDict n _ (h key hkey)
    · rw [if_neg hdata]
      exact h key hkey

theorem specProjValue_name {resource : Obj} {name : Value}
    (hm : metaName resource = .ok name) :
    specProjValue resource "name" = name := by
  rw [metaName] at hm
  rw [specProjValue, if_pos rfl]
  cases hmd : alookup resource "metadata" with
  | none =>
    rw [hmd] at hm
    cases hm
    rfl
  | some md =>
    rw [hmd] at hm
    cases md with
    | obj mm => cases hm; rfl
    | str s => exact (Except.noConfusion hm)
    | num i => exact (Except.noConfusion hm)
    | bool b => exact (Except.noConfusion hm)
    | null => exact (Except.noConfusion hm)
    | arr l => exact (Except.noConfusion hm)

/-- Every value of the marshalled projection: the canonicalized value the
spec projects. -/
theorem proj_value_eq {resource : Obj} (hd : keysDistinct resource)
    {name : Value} (hm : metaName resource = .ok name) (key : String) :
    (alookup (sorted_dict (dictSet resource "name" name)) key).getD (.str "") =
    sortIfDict (specProjValue resource key) := by
  rw [alookup_sorted_dict (keysDistinct_dictSet hd "name" name)]
  by_cases hk : key = "name"
  · subst hk
    rw [alookup_dictSet_self, specProjValue_name hm]
    rfl
  · rw [alookup_dictSet_ne _ _ (fun hc => hk hc)]
    rw [specProjValue, if_neg hk]
    cases hv : alookup resource key with
    | some v => rfl
    | none => exact (sortIfDict_str "").symm

theorem wordHex_length (x : Nat) : (wordHex x).length = 8 := rfl

theorem sha256Hex_length (msg : List Nat) : (sha256Hex msg).length = 64 := by
  rw [sha256Hex, String.length]
  simp only [List.length_append, wordHex_length]

theorem fingerprintOfBytes_length (bytes : List Nat) :
    (fingerprintOfBytes bytes).length = 10 := by
  rw [fingerprintOfBytes, String.length]
  rw [List.length_map, List.length_take]
  have h1 : (sha256Hex bytes).data.length = 64 := sha256Hex_length bytes
  omega

/-! ### Branch lemmas for `generate_hash` -/

theorem generate_hash_ok (resource : Obj) (name : Value)
    (hm : metaName resource = .ok name) :
    generate_hash resource = hashOfKind (dictSet resource "name" name) := by
  rw [generate_hash, hm]

theorem generate_hash_err (resource : Obj) (e : PyErr)
    (hm : metaName resource = .error e) :
    generate_hash resource = (.error e, resource) := by
  rw [generate_hash, hm]

theorem hashOfKind_config (r : Obj)
    (h : alookup r "kind" = some (.str "ConfigMap")) :
    hashOfKind r =
      (.ok (encode (marshal (sorted_dict r) ["data", "kind", "name"])),
       dictDel r "name") := by
  rw [hashOfKind, h]
  rfl

theorem hashOfKind_secret (r : Obj)
    (h : alookup r "kind" = some (.str "Secret")) :
    hashOfKind r =
      (.ok (encode (marshal (sorted_dict r) ["data", "kind", "name", "type"])),
       dictDel r "name") := by
  rw [hashOfKind, h]
  rfl

theorem hashOfKind_missing (r : Obj) (h : alookup r "kind" = none) :
    hashOfKind r = (.error .keyErr, r) := by
  rw [hashOfKind, h]

theorem str_ne_of_ne {s1 s2 : String} (h : s1 ≠ s2) :
    Value.str s1 ≠ .str s2 :=
  fun hc => h (by cases hc; rfl)

theorem hashOfKind_other (r : Obj) (k : Value)
    (hk : alookup r "kind" = some k)
    (hcm : k ≠ .str "ConfigMap") (hsec : k ≠ .str "Secret") :
    hashOfKind r = (.error .notImplErr, r) := by
  rw [hashOfKind, hk]
  cases k with
  | str s =>
    have h1 : s ≠ "ConfigMap" := fun hc => hcm (by rw [hc])
    have h2 : s ≠ "Secret" := fun hc => hsec (by rw [hc])
    simp only [if_neg h1, if_neg h2]
  | num i => rfl
  | bool b => rfl
  | null => rfl
  | arr l => rfl
  | obj mm => rfl

/-! ### Concrete documents used by the claims -/

/-- A Pod document with well-formed metadata. -/
def podDoc : Obj :=
  [("kind", .str "Pod"), ("metadata", .obj [("name", .str "n")])]

/-- A ConfigMap document carrying a pre-existing top-level `name` entry. -/
def cmWithName : Obj :=
  [("kind", .str "ConfigMap"), ("name", .str "orig"),
   ("metadata", .obj [("name", .str "n")])]

/-- A ConfigMap document whose `metadata` is a string, not a mapping. -/
def badMetaCM : Obj := [("kind", .str "ConfigMap"), ("metadata", .str "x")]

/-- A Pod document whose `metadata` is a string, not a mapping. -/
def badMetaPod : Obj := [("kind", .str "Pod"), ("metadata", .str "x")]

/-- A document with no `kind` whose `metadata` is a string. -/
def noKindBadMeta : Obj := [("metadata", .str "x")]

/-- A ConfigMap whose `metadata.name` is itself a two-key mapping. -/
def dictNameCM : Obj :=
  [("kind", .str "ConfigMap"),
   ("metadata", .obj [("name", .obj [("b", .num 2), ("a", .num 1)])])]

/-- A plain ConfigMap document. -/
def cmDoc : Obj :=
  [("kind", .str "ConfigMap"),
   ("metadata", .obj [("name", .str "n")]),
   ("data", .obj [("k", .str "v")])]

/-! ### Claim C2 -/

theorem encode_marshal_eq {resource : Obj} (hd : keysDistinct resource)
    {name : Value} (hm : metaName resource = .ok name) (keys : List String) :
    encode (marshal (sorted_dict (dictSet resource "name" name)) keys) =
    spec_fingerprint resource keys := by
  have hmap : keys.map (fun key =>
      (key, (alookup (sorted_dict (dictSet resource "name" name)) key).getD
        (.str ""))) =
      keys.map (fun key => (key, sortIfDict (specProjValue resource key))) := by
    apply List.map_congr_left
    intro key _
    rw [proj_value_eq hd hm key]
  rw [encode, spec_fingerprint, fingerprintOfBytes, marshal, hmap]

/-! ### Claim C5 -/

/-- `cmDoc` with extra fields outside the hashed projection. -/
def cmDocExtra : Obj :=
  [("apiVersion", .str "v1"), ("kind", .str "ConfigMap"),
   ("metadata", .obj [("name", .str "n"), ("namespace", .str "ns")]),
   ("data", .obj [("k", .str "v")]),
   ("status", .obj [("phase", .str "Active")])]

/-! ### Key-order equivalence of documents

`VEq v1 v2` holds when `v1` and `v2` are field-wise equal except for the
insertion order of mapping keys, where the reordering may happen at any
depth reachable through mappings alone (values inside sequences must be
identical).  `VEqD` additionally allows reordering inside mappings nested
in sequences, which is what claim C4 literally quantifies over. -/

mutual
inductive VEq : Value → Value → Prop where
  | str (s : String) : VEq (.str s) (.str s)
  | num (i : Int) : VEq (.num i) (.num i)
  | bool (b : Bool) : VEq (.bool b) (.bool b)
  | null : VEq .null .null
  | arr (l : List Value) : VEq (.arr l) (.arr l)
  | obj {m1 l m2 : Obj} (hp : m1.Perm l) (hf : VEqEntries l m2) :
      VEq (.obj m1) (.obj m2)

/-- Pointwise relation between dict entry lists: same keys in the same
order, values `VEq`-related. -/
inductive VEqEntries : Obj → Obj → Prop where
  | nil : VEqEntries [] []
  | cons (k : String) {v1 v2 : Value} {t1 t2 : Obj}
      (hv : VEq v1 v2) (ht : VEqEntries t1 t2) :
      VEqEntries ((k, v1) :: t1) ((k, v2) :: t2)
end

mutual
inductive VEqD : Value → Value → Prop where
  | str (s : String) : VEqD (.str s) (.str s)
  | num (i : Int) : VEqD (.num i) (.num i)
  | bool (b : Bool) : VEqD (.bool b) (.bool b)
  | null : VEqD .null .null
  | arr {l1 l2 : List Value} (h : VEqDList l1 l2) : VEqD (.arr l1) (.arr l2)
  | obj {m1 l m2 : Obj} (hp : m1.Perm l) (hf : VEqDEntries l m2) :
      VEqD (.obj m1) (.obj m2)

inductive VEqDList : List Value → List Value → Prop where
  | nil : VEqDList [] []
  | cons {v1 v2 : Value} {t1 t2 : List Value}
      (hv : VEqD v1 v2) (ht : VEqDList t1 t2) :
      VEqDList (v1 :: t1) (v2 :: t2)

inductive VEqDEntries : Obj → Obj → Prop where
  | nil : VEqDEntries [] []
  | cons (k : String) {v1 v2 : Value} {t1 t2 : Obj}
      (hv : VEqD v1 v2) (ht : VEqDEntries t1 t2) :
      VEqDEntries ((k, v1) :: t1) ((k, v2) :: t2)
end

theorem VEqEntries_of_forall {m : Obj} (h : ∀ kv ∈ m, VEq kv.2 kv.2) :
    VEqEntries m m := by
  induction m with
  | nil => exact .nil
  | cons kv t ih =>
    exact VEqEntries.cons kv.1 (h kv (List.mem_cons_self kv t))
      (ih (fun kv2 hkv2 => h kv2 (List.mem_cons_of_mem kv hkv2)))

theorem VEq_refl : ∀ v : Value, VEq v v := by
  intro v
  induction v using Value.inductionOn with
  | hstr s => exact VEq.str s
  | hnum i => exact VEq.num i
  | hbool b => exact VEq.bool b
  | hnull => exact VEq.null
  | harr l _ => exact VEq.arr l
  | hobj m ih => exact VEq.obj (List.Perm.refl m) (VEqEntries_of_forall ih)

theorem VEqDList_of_forall {l : List Value} (h : ∀ v ∈ l, VEqD v v) :
    VEqDList l l := by
  induction l with
  | nil => exact .nil
  | cons v t ih =>
    exact VEqDList.cons (h v (List.mem_cons_self v t))
      (ih (fun v2 hv2 => h v2 (List.mem_cons_of_mem v hv2)))

theorem VEqDEntries_of_forall {m : Obj} (h : ∀ kv ∈ m, VEqD kv.2 kv.2) :
    VEqDEntries m m := by
  induction m with
  | nil => exact .nil
  | cons kv t ih =>
    exact VEqDEntries.cons kv.1 (h kv (List.mem_cons_self kv t))
      (ih (fun kv2 hkv2 => h kv2 (List.mem_cons_of_mem kv hkv2)))

theorem VEqD_refl : ∀ v : Value, VEqD v v := by
  intro v
  induction v using Value.inductionOn with
  | hstr s => exact VEqD.str s
  | hnum i => exact VEqD.num i
  | hbool b => exact VEqD.bool b
  | hnull => exact VEqD.null
  | harr l ih => exact VEqD.arr (VEqDList_of_forall ih)
  | hobj m ih => exact VEqD.obj (List.Perm.refl m) (VEqDEntries_of_forall ih)

/-- Distinct-keys check as a Boolean. -/
def keysDistinctB : Obj → Bool
  | [] => true
  | kv :: t => t.all (fun kv2 => kv.1 != kv2.1) && keysDistinctB t

theorem keysDistinctB_iff {m : Obj} :
    keysDistinctB m = true ↔ keysDistinct m := by
  induction m with
  | nil => simp [keysDistinctB, keysDistinct]
  | cons kv t ih =>
    rw [keysDistinctB, keysDistinct, List.pairwise_cons,
        Bool.and_eq_true, List.all_eq_true, ih]
    constructor
    · rintro ⟨h1, h2⟩
      exact ⟨fun b hb => by
        have := h1 b hb
        rw [bne_iff_ne] at this
        exact this, h2⟩
    · rintro ⟨h1, h2⟩
      exact ⟨fun b hb => by rw [bne_iff_ne]; exact h1 b hb, h2⟩

/-- Depth-bounded well-formedness: keys pairwise distinct in every mapping
down to depth `n`. -/
def wfF : Nat → Value → Bool
  | 0, .obj _ => false
  | 0, .arr _ => false
  | 0, _ => true
  | n + 1, .obj m => keysDistinctB m && m.all (fun kv => wfF n kv.2)
  | n + 1, .arr l => l.all (fun v => wfF n v)
  | _ + 1, _ => true

/-- A well-formed document value: keys pairwise distinct in every mapping
at every depth (every value built from Python dicts satisfies this). -/
def WfV (v : Value) : Prop := ∃ n, wfF n v = true

theorem WfV_obj_distinct {m : Obj} (h : WfV (.obj m)) : keysDistinct m := by
  obtain ⟨n, hn⟩ := h
  cases n with
  | zero => cases hn
  | succ n =>
    rw [wfF, Bool.and_eq_true] at hn
    exact keysDistinctB_iff.mp hn.1

theorem WfV_obj_mem {m : Obj} (h : WfV (.obj m)) {kv : String × Value}
    (hkv : kv ∈ m) : WfV kv.2 := by
  obtain ⟨n, hn⟩ := h
  cases n with
  | zero => cases hn
  | succ n =>
    rw [wfF, Bool.and_eq_true, List.all_eq_true] at hn
    exact ⟨n, hn.2 kv hkv⟩

theorem WfV_arr_mem {l : List Value} (h : WfV (.arr l)) {v : Value}
    (hv : v ∈ l) : WfV v := by
  obtain ⟨n, hn⟩ := h
  cases n with
  | zero => cases hn
  | succ n =>
    rw [wfF, List.all_eq_true] at hn
    exact ⟨n, hn v hv⟩

/-! ### Claims C7 and C6 -/

theorem VEqEntries_map_sortIfDict {l : Obj}
    (h : ∀ kv ∈ l, VEq kv.2 (sortIfDict kv.2)) :
    VEqEntries l (l.map (fun kv => (kv.1, sortIfDict kv.2))) := by
  induction l with
  | nil => exact .nil
  | cons kv t ih =>
    exact .cons kv.1 (h kv (List.mem_cons_self kv t))
      (ih (fun kv2 hkv2 => h kv2 (List.mem_cons_of_mem kv hkv2)))

theorem VEq_sortIfDict : ∀ v : Value, VEq v (sortIfDict v) := by
  intro v
  induction v using Value.inductionOn with
  | hstr s => rw [sortIfDict_str]; exact VEq.str s
  | hnum i => rw [sortIfDict_num]; exact VEq.num i
  | hbool b => rw [sortIfDict_bool]; exact VEq.bool b
  | hnull => rw [sortIfDict_null]; exact VEq.null
  | harr l _ => rw [sortIfDict_arr]; exact VEq.arr l
  | hobj m ih =>
    rw [sortIfDict_obj, sorted_dict_source_order]
    exact VEq.obj (List.perm_insertionSort keyLE m).symm
      (VEqEntries_map_sortIfDict (fun kv hkv =>
        ih kv ((List.mem_insertionSort keyLE).mp hkv)))

theorem sortIfDict_idem : ∀ v : Value,
    sortIfDict (sortIfDict v) = sortIfDict v := by
  intro v
  induction v using Value.inductionOn with
  | hstr s => rw [sortIfDict_str, sortIfDict_str]
  | hnum i => rw [sortIfDict_num, sortIfDict_num]
  | hbool b => rw [sortIfDict_bool, sortIfDict_bool]
  | hnull => rw [sortIfDict_null, sortIfDict_null]
  | harr l _ => rw [sortIfDict_arr, sortIfDict_arr]
  | hobj m ih =>
    rw [sortIfDict_obj, sortIfDict_obj]
    congr 1
    have h1 : (sorted_dict m).map (fun kv => (kv.1, sortIfDict kv.2)) =
        sorted_dict m := by
      have h0 : ∀ kv ∈ sorted_dict m, (kv.1, sortIfDict kv.2) = kv := by
        intro kv hkv
        obtain ⟨kv0, hm0, heq⟩ := mem_sorted_dict hkv
        rw [heq]
        exact congrArg (Prod.mk kv0.1) (ih kv0 hm0)
      calc (sorted_dict m).map (fun kv => (kv.1, sortIfDict kv.2))
          = (sorted_dict m).map id := List.map_congr_left h0
        _ = sorted_dict m := List.map_id _
    rw [show sorted_dict (sorted_dict m) =
        sortByKey ((sorted_dict m).map (fun kv => (kv.1, sortIfDict kv.2)))
        from rfl, h1, sortByKey]
    exact List.Sorted.insertionSort_eq (List.sorted_insertionSort keyLE _)

/-! ### Claim C4 -/

/-- Strict key order. -/
def keyLT (a b : String × Value) : Prop := strLtL a.1.data b.1.data = true

instance : IsAntisymm (String × Value) keyLT :=
  ⟨fun _ _ h1 h2 => absurd h2 (by rw [keyLT, strLtL_asymm _ _ h1]; decide)⟩

theorem sorted_strict {l : Obj} (hs : List.Sorted keyLE l)
    (hd : keysDistinct l) : List.Sorted keyLT l := by
  have hand := List.Pairwise.and hs hd
  apply hand.imp
  intro a b hab
  obtain ⟨hle, hne⟩ := hab
  rw [keyLE, strLE, Bool.not_eq_true'] at hle
  rw [keyLT]
  rcases strLtL_trichotomy a.1.data b.1.data with h | h | h
  · exact h
  · exact absurd (String.ext h) hne
  · exact absurd h (by rw [hle]; decide)

theorem sortByKey_eq_of_perm {A B : Obj} (hp : A.Perm B)
    (hd : keysDistinct A) : sortByKey A = sortByKey B := by
  have hd2 : keysDistinct B := keysDistinct_perm hp hd
  have hsA : keysDistinct (sortByKey A) :=
    keysDistinct_perm (List.perm_insertionSort keyLE A).symm hd
  have hsB : keysDistinct (sortByKey B) :=
    keysDistinct_perm (List.perm_insertionSort keyLE B).symm hd2
  have hperm : (sortByKey A).Perm (sortByKey B) :=
    (List.perm_insertionSort keyLE A).trans
      (hp.trans (List.perm_insertionSort keyLE B).symm)
  exact List.eq_of_perm_of_sorted hperm
    (sorted_strict (List.sorted_insertionSort keyLE A) hsA)
    (sorted_strict (List.sorted_insertionSort keyLE B) hsB)

theorem VEqEntries_keys {l m2 : Obj} (hf : VEqEntries l m2) :
    l.map Prod.fst = m2.map Prod.fst := by
  induction l generalizing m2 with
  | nil => cases hf; rfl
  | cons a t ih =>
    cases hf with
    | cons k hv ht =>
      rw [List.map_cons, List.map_cons, ih ht]

theorem VEqEntries_mem {l m2 : Obj} (hf : VEqEntries l m2)
    {kv : String × Value} (hkv : kv ∈ l) :
    ∃ v2, (kv.1, v2) ∈ m2 ∧ VEq kv.2 v2 := by
  induction l generalizing m2 with
  | nil => cases hkv
  | cons a t ih =>
    cases hf with
    | cons k hv ht =>
      rcases List.mem_cons.mp hkv with rfl | hkv2
      · exact ⟨_, List.mem_cons_self _ _, hv⟩
      · obtain ⟨v2, hm, hrel⟩ := ih ht hkv2
        exact ⟨v2, List.mem_cons_of_mem _ hm, hrel⟩

theorem keysDistinct_iff_keys {m : Obj} :
    keysDistinct m ↔ (m.map Prod.fst).Pairwise (fun a b => a ≠ b) := by
  rw [keysDistinct, List.pairwise_map]

/-- Related documents have related lookups. -/
theorem VEq_alookup {m1 m2 : Obj} (h : VEq (.obj m1) (.obj m2))
    (hd1 : keysDistinct m1) (k : String) :
    (alookup m1 k = none ∧ alookup m2 k = none) ∨
    (∃ v1 v2, alookup m1 k = some v1 ∧ alookup m2 k = some v2 ∧ VEq v1 v2) := by
  cases h with
  | @obj _ l _ hp hf =>
    have hkeys : l.map Prod.fst = m2.map Prod.fst := VEqEntries_keys hf
    have hdl : keysDistinct l := keysDistinct_perm hp hd1
    have hd2 : keysDistinct m2 := by
      rw [keysDistinct_iff_keys, ← hkeys, ← keysDistinct_iff_keys]
      exact hdl
    cases h1 : alookup m1 k with
    | none =>
      left
      refine ⟨rfl, ?_⟩
      have hn1 : k ∉ m1.map Prod.fst := alookup_eq_none_iff.mp h1
      rw [alookup_eq_none_iff, ← hkeys]
      intro hc
      exact hn1 ((hp.map Prod.fst).mem_iff.mpr hc)
    | some v1 =>
      right
      have hml : (k, v1) ∈ l := hp.mem_iff.mp (alookup_mem h1)
      obtain ⟨v2, hm2, hrel⟩ := VEqEntries_mem hf hml
      exact ⟨v1, v2, rfl, alookup_of_mem hd2 hm2, hrel⟩

theorem VEqEntries_map_eq {l m2 : Obj} (hf : VEqEntries l m2)
    (hw2 : ∀ kv ∈ m2, WfV kv.2)
    (hpt : ∀ kv1 ∈ l, ∀ v2, VEq kv1.2 v2 → WfV v2 →
      sortIfDict kv1.2 = sortIfDict v2) :
    l.map (fun kv => (kv.1, sortIfDict kv.2)) =
    m2.map (fun kv => (kv.1, sortIfDict kv.2)) := by
  induction l generalizing m2 with
  | nil => cases hf; rfl
  | cons a t ih =>
    cases hf with
    | @cons k v1 v2 t1 t2 hv ht =>
      rw [List.map_cons, List.map_cons]
      congr 1
      · exact congrArg (Prod.mk k)
          (hpt _ (List.mem_cons_self _ _) v2 hv
            (hw2 (k, v2) (List.mem_cons_self _ _)))
      · exact ih ht (fun kv h2 => hw2 kv (List.mem_cons_of_mem _ h2))
          (fun kv1 h1 w hrel hw => hpt kv1 (List.mem_cons_of_mem _ h1) w hrel hw)

/-- The canonicalizer maps key-order-equivalent well-formed values to
identical results. -/
theorem sortIfDict_VEq_eq : ∀ v1 : Value, WfV v1 → ∀ v2, VEq v1 v2 →
    WfV v2 → sortIfDict v1 = sortIfDict v2 := by
  intro v1
  induction v1 using Value.inductionOn with
  | hstr s => intro _ v2 h _; cases h; rfl
  | hnum i => intro _ v2 h _; cases h; rfl
  | hbool b => intro _ v2 h _; cases h; rfl
  | hnull => intro _ v2 h _; cases h; rfl
  | harr l _ => intro _ v2 h _; cases h; rfl
  | hobj m1 ih =>
    intro hw1 v2 h hw2
    cases h with
    | @obj _ l m2 hp hf =>
      rw [sortIfDict_obj, sortIfDict_obj]
      congr 1
      have hd1 : keysDistinct m1 := WfV_obj_distinct hw1
      have hmapeq : l.map (fun kv => (kv.1, sortIfDict kv.2)) =
          m2.map (fun kv => (kv.1, sortIfDict kv.2)) := by
        apply VEqEntries_map_eq hf (fun kv hkv => WfV_obj_mem hw2 hkv)
        intro kv1 h1 w hrel hw
        exact ih kv1 (hp.symm.subset h1)
          (WfV_obj_mem hw1 (hp.symm.subset h1)) w hrel hw
      have hAB : (m1.map (fun kv => (kv.1, sortIfDict kv.2))).Perm
          (m2.map (fun kv => (kv.1, sortIfDict kv.2))) := by
        rw [← hmapeq]
        exact hp.map _
      rw [sorted_dict, sorted_dict]
      exact sortByKey_eq_of_perm hAB (keysDistinct_map_val.mpr hd1)

/-- Related documents have related name extractions. -/
theorem metaName_rel {d1 d2 : Obj} (hw1 : WfV (.obj d1)) (hw2 : WfV (.obj d2))
    (heq : VEq (.obj d1) (.obj d2)) :
    (∃ e, metaName d1 = .error e ∧ metaName d2 = .error e) ∨
    (∃ n1 n2, metaName d1 = .ok n1 ∧ metaName d2 = .ok n2 ∧
      VEq n1 n2 ∧ WfV n1 ∧ WfV n2) := by
  have hd1 : keysDistinct d1 := WfV_obj_distinct hw1
  rcases VEq_alookup heq hd1 "metadata" with ⟨h1, h2⟩ | ⟨v1, v2, h1, h2, hrel⟩
  · right
    refine ⟨.str "", .str "", ?_, ?_, VEq.str "", ⟨0, rfl⟩, ⟨0, rfl⟩⟩
    · rw [metaName, h1]
    · rw [metaName, h2]
  · cases hrel with
    | str s =>
      left
      exact ⟨.attrErr, by rw [metaName, h1], by rw [metaName, h2]⟩
    | num i =>
      left
      exact ⟨.attrErr, by rw [metaName, h1], by rw [metaName, h2]⟩
    | bool b =>
      left
      exact ⟨.attrErr, by rw [metaName, h1], by rw [metaName, h2]⟩
    | null =>
      left
      exact ⟨.attrErr, by rw [metaName, h1], by rw [metaName, h2]⟩
    | arr l =>
      left
      exact ⟨.attrErr, by rw [metaName, h1], by rw [metaName, h2]⟩
    | @obj mm1 ll mm2 hp hf =>
      right
      have hwm1 : WfV (.obj mm1) := WfV_obj_mem hw1 (alookup_mem h1)
      have hwm2 : WfV (.obj mm2) := WfV_obj_mem hw2 (alookup_mem h2)
      have hdm1 : keysDistinct mm1 := WfV_obj_distinct hwm1
      rcases VEq_alookup (VEq.obj hp hf) hdm1 "name" with
        ⟨hn1, hn2⟩ | ⟨w1, w2, hn1, hn2, hwrel⟩
      · refine ⟨.str "", .str "", ?_, ?_, VEq.str "", ⟨0, rfl⟩, ⟨0, rfl⟩⟩
        · rw [metaName, h1]
          show Except.ok ((alookup mm1 "name").getD (Value.str "")) = _
          rw [hn1]
          rfl
        · rw [metaName, h2]
          show Except.ok ((alookup mm2 "name").getD (Value.str "")) = _
          rw [hn2]
          rfl
      · refine ⟨w1, w2, ?_, ?_, hwrel, ?_, ?_⟩
        · rw [metaName, h1]
          show Except.ok ((alookup mm1 "name").getD (Value.str "")) = _
          rw [hn1]
          rfl
        · rw [metaName, h2]
          show Except.ok ((alookup mm2 "name").getD (Value.str "")) = _
          rw [hn2]
          rfl
        · exact WfV_obj_mem hwm1 (alookup_mem hn1)
        · exact WfV_obj_mem hwm2 (alookup_mem hn2)

/-- `cmA` reordered at the top level and inside the `data` mapping. -/
def cmA : Obj :=
  [("kind", .str "ConfigMap"), ("metadata", .obj [("name", .str "n")]),
   ("data", .obj [("a", .str "1"), ("b", .str "2")])]

def cmB : Obj :=
  [("metadata", .obj [("name", .str "n")]), ("kind", .str "ConfigMap"),
   ("data", .obj [("b", .str "2"), ("a", .str "1")])]

/-- A ConfigMap whose `data` holds a mapping nested inside a sequence. -/
def cmArrA : Obj :=
  [("kind", .str "ConfigMap"), ("metadata", .obj [("name", .str "n")]),
   ("data", .arr [.obj [("a", .num 1), ("b", .num 2)]])]

def cmArrB : Obj :=
  [("kind", .str "ConfigMap"), ("metadata", .obj [("name", .str "n")]),
   ("data", .arr [.obj [("b", .num 2), ("a", .num 1)]])]

/-! ### Claim C8: the structural differ -/

mutual
/-- Modelled from the spec: leaf equality used by the differ ("sequences
are compared for full equality as opaque leaf values"): structural
equality of values. -/
def beqV : Value → Value → Bool
  | .str a, .str b => a == b
  | .num a, .num b => a == b
  | .bool a, .bool b => a == b
  | .null, .null => true
  | .arr l1, .arr l2 => beqVList l1 l2
  | .obj m1, .obj m2 => beqVObj m1 m2
  | _, _ => false

def beqVList : List Value → List Value → Bool
  | [], [] => true
  | a :: as, b :: bs => beqV a b && beqVList as bs
  | _, _ => false

def beqVObj : Obj → Obj → Bool
  | [], [] => true
  | a :: as, b :: bs => (a.1 == b.1) && beqV a.2 b.2 && beqVObj as bs
  | _, _ => false
end

theorem beqV_refl : ∀ v : Value, beqV v v = true := by
  intro v
  induction v using Value.inductionOn with
  | hstr s => simp [beqV]
  | hnum i => simp [beqV]
  | hbool b => simp [beqV]
  | hnull => simp [beqV]
  | harr l ih =>
    rw [beqV]
    induction l with
    | nil => rfl
    | cons a t iht =>
      rw [beqVList, ih a (List.mem_cons_self a t),
        iht (fun v hv => ih v (List.mem_cons_of_mem a hv))]
      rfl
  | hobj m ih =>
    rw [beqV]
    induction m with
    | nil => rfl
    | cons a t iht =>
      rw [beqVObj, ih a (List.mem_cons_self a t),
        iht (fun kv hkv => ih kv (List.mem_cons_of_mem a hkv))]
      simp

mutual
/-- Modelled from the spec: the per-value diff: two nested mappings are
recursed into (keeping a side only when it has differing descendants),
anything else is an opaque leaf recorded verbatim on both sides when
unequal. -/
def diffV : Value → Value → Option Value × Option Value
  | .obj na, .obj nb =>
    ((if (diffRec na nb).1.isEmpty then none else some (.obj (diffRec na nb).1)),
     (if (diffRec na nb).2.isEmpty then none else some (.obj (diffRec na nb).2)))
  | va, vb => if beqV va vb then (none, none) else (some va, some vb)
termination_by v _ => sizeOf v
decreasing_by
  all_goals (simp only [Value.obj.sizeOf_spec]; omega)

/-- Modelled from the spec: the recursive core of `diff_objects` (the
K8sService differ exercised by the unit tests is not under src/).  Spec
section 4.2: walk the keys present on either side; a key present on one
side only is recorded on that side; equal leaves are omitted.  Returns the
partial `before` and `after` documents. -/
def diffRec (ma mb : Obj) : Obj × Obj :=
  (((ma.attach.map (fun kv =>
      (kv.1.1, match alookup mb kv.1.1 with
               | none => ((some kv.1.2 : Option Value), (none : Option Value))
               | some vb => diffV kv.1.2 vb))).filterMap
      (fun p => p.2.1.map (fun v => (p.1, v)))),
   ((ma.attach.map (fun kv =>
      (kv.1.1, match alookup mb kv.1.1 with
               | none => ((some kv.1.2 : Option Value), (none : Option Value))
               | some vb => diffV kv.1.2 vb))).filterMap
      (fun p => p.2.2.map (fun v => (p.1, v)))) ++
     mb.filter (fun kv => (alookup ma kv.1).isNone))
termination_by sizeOf ma
decreasing_by
  all_goals
    obtain ⟨⟨k, v⟩, hmem⟩ := kv
    have h1 := List.sizeOf_lt_of_mem hmem
    simp only [Prod.mk.sizeOf_spec] at *
    omega
end

/-- Modelled from the spec: `DiffObjects` returns `matches` together with
the delta, which is empty when `matches` holds and otherwise holds exactly
the `before` and `after` partial documents. -/
def diff_objects (a b : Obj) : Bool × Obj :=
  if (diffRec a b).1.isEmpty && (diffRec a b).2.isEmpty then (true, [])
  else (false, [("before", .obj (diffRec a b).1), ("after", .obj (diffRec a b).2)])

theorem diff_self : ∀ v : Value, WfV v →
    diffV v v = (none, none) ∧ (∀ m, v = .obj m → diffRec m m = ([], [])) := by
  intro v
  induction v using Value.inductionOn with
  | hstr s =>
    exact fun _ => ⟨by simp [diffV, beqV_refl], fun m heq => by cases heq⟩
  | hnum i =>
    exact fun _ => ⟨by simp [diffV, beqV_refl], fun m heq => by cases heq⟩
  | hbool b =>
    exact fun _ => ⟨by simp [diffV, beqV_refl], fun m heq => by cases heq⟩
  | hnull =>
    exact fun _ => ⟨by simp [diffV, beqV_refl], fun m heq => by cases heq⟩
  | harr l _ =>
    exact fun _ => ⟨by simp [diffV, beqV_refl], fun m heq => by cases heq⟩
  | hobj m0 ih =>
    intro hw
    have hd : keysDistinct m0 := WfV_obj_distinct hw
    have hrec : diffRec m0 m0 = ([], []) := by
      simp only [diffRec]
      have hpairs : ∀ kv : {x // x ∈ m0},
          (match alookup m0 kv.1.1 with
           | none => ((some kv.1.2 : Option Value), (none : Option Value))
           | some vb => diffV kv.1.2 vb) =
          ((none : Option Value), (none : Option Value)) := by
        intro kv
        rw [alookup_of_mem hd kv.2]
        exact (ih kv.1 kv.2 (WfV_obj_mem hw kv.2)).1
      rw [Prod.mk.injEq]
      constructor
      · rw [List.filterMap_eq_nil_iff]
        intro p hp
        obtain ⟨kv, _, heq⟩ := List.mem_map.mp hp
        rw [← heq, hpairs kv]
        rfl
      · rw [List.append_eq_nil]
        constructor
        · rw [List.filterMap_eq_nil_iff]
          intro p hp
          obtain ⟨kv, _, heq⟩ := List.mem_map.mp hp
          rw [← heq, hpairs kv]
          rfl
        · rw [List.filter_eq_nil_iff]
          intro kv hkv
          rw [alookup_of_mem hd hkv]
          exact fun hc => by cases hc
    refine ⟨?_, fun m heq => by cases heq; exact hrec⟩
    simp only [diffV, hrec]
    rfl

/-- The `pod_definition` document of the unit tests. -/
def pod_definition : Obj :=
  [("apiVersion", .str "v1"), ("kind", .str "Pod"),
   ("metadata", .obj
     [("name", .str "foo"),
      ("labels", .obj [("environment", .str "production"),
                       ("app", .str "nginx")]),
      ("namespace", .str "foo")]),
   ("spec", .obj
     [("containers", .arr
       [.obj [("name", .str "nginx"), ("image", .str "nginx:1.14.2"),
              ("command", .arr [.str "/bin/sh", .str "-c",
                                .str "sleep 10"])]])])]

/-! ### Claim C10: a heap model of `sorted_dict`

Python dicts are mutable objects accessed by reference.  To state the
frame claim (the argument is not mutated, the result is freshly built) the
store is modelled explicitly: an address is an index into a list of dict
bodies, a dict-valued entry holds a reference (`dref`), and every other
value is immutable data.  `sorted_dict` reads its argument, sorts the
items by key, recursively copies every dict value, and writes the result
into a freshly allocated address; it performs no write to any existing
address.  The fuel bounds the recursion depth (the source would not
terminate on a cyclic document). -/

inductive HVal : Type where
  | str (s : String)
  | num (i : Int)
  | bool (b : Bool)
  | null
  | arr (l : List HVal)
  | dref (a : Nat)

abbrev HBody := List (String × HVal)

abbrev Store := List HBody

def keyLEH (a b : String × HVal) : Prop := strLE a.1 b.1 = true

instance : DecidableRel keyLEH := fun _ _ =>
  inferInstanceAs (Decidable (_ = true))

/-- `sorted(d.items())` on heap entries. -/
def sortByKeyH (m : HBody) : HBody := m.insertionSort keyLEH

/-- One value of the loop of `sorted_dict`: a dict value is recursively
copied via `f`, everything else is stored as is (shared, not copied). -/
def entryVal (f : Store → Nat → Option (Store × Nat)) (σ : Store) :
    HVal → Option (Store × HVal)
  | .str s => some (σ, .str s)
  | .num i => some (σ, .num i)
  | .bool b => some (σ, .bool b)
  | .null => some (σ, .null)
  | .arr l => some (σ, .arr l)
  | .dref b =>
    match f σ b with
    | none => none
    | some (σ2, a2) => some (σ2, .dref a2)

/-- The loop of `sorted_dict` over the (already sorted) items, threading
the store. -/
def sortEntriesWith (f : Store → Nat → Option (Store × Nat)) :
    Store → HBody → Option (Store × HBody)
  | σ, [] => some (σ, [])
  | σ, (k, v) :: t =>
    match entryVal f σ v with
    | none => none
    | some (σ2, v2) =>
      match sortEntriesWith f σ2 t with
      | none => none
      | some (σ3, t3) => some (σ3, (k, v2) :: t3)

/-- `sorted_dict` on the heap: read the dict at `a`, sort its items by
key, recursively copy dict values, allocate the result as a fresh dict
(`result = OrderedDict()` then insertions), return its address. -/
def sorted_dictH : Nat → Store → Nat → Option (Store × Nat)
  | 0, _, _ => none
  | fuel + 1, σ, a =>
    match σ[a]? with
    | none => none
    | some body =>
      match sortEntriesWith (sorted_dictH fuel) σ (sortByKeyH body) with
      | none => none
      | some (σ3, entries) => some (σ3 ++ [entries], σ3.length)

theorem entryVal_props (f : Store → Nat → Option (Store × Nat))
    (hf : ∀ σ a σ2 r, f σ a = some (σ2, r) →
      (∃ ext, σ2 = σ ++ ext) ∧ σ.length ≤ r)
    (σ : Store) (v : HVal) (σ2 : Store) (v2 : HVal)
    (h : entryVal f σ v = some (σ2, v2)) :
    (∃ ext, σ2 = σ ++ ext) ∧ (∀ b, v2 = HVal.dref b → σ.length ≤ b) := by
  cases v with
  | dref b0 =>
    rw [entryVal] at h
    split at h
    · cases h
    · next σ2h a2 hfa =>
      cases h
      obtain ⟨he, hr⟩ := hf _ _ _ _ hfa
      refine ⟨he, ?_⟩
      intro b hb
      cases hb
      exact hr
  | str s =>
    rw [entryVal] at h
    cases h
    exact ⟨⟨[], by rw [List.append_nil]⟩, fun b hb => by cases hb⟩
  | num i =>
    rw [entryVal] at h
    cases h
    exact ⟨⟨[], by rw [List.append_nil]⟩, fun b hb => by cases hb⟩
  | bool bb =>
    rw [entryVal] at h
    cases h
    exact ⟨⟨[], by rw [List.append_nil]⟩, fun b hb => by cases hb⟩
  | null =>
    rw [entryVal] at h
    cases h
    exact ⟨⟨[], by rw [List.append_nil]⟩, fun b hb => by cases hb⟩
  | arr l =>
    rw [entryVal] at h
    cases h
    exact ⟨⟨[], by rw [List.append_nil]⟩, fun b hb => by cases hb⟩

theorem sortEntriesWith_props
    (f : Store → Nat → Option (Store × Nat))
    (hf : ∀ σ a σ2 r, f σ a = some (σ2, r) →
      (∃ ext, σ2 = σ ++ ext) ∧ σ.length ≤ r) :
    ∀ (l : HBody) (σ : Store) (σ3 : Store) (out : HBody),
      sortEntriesWith f σ l = some (σ3, out) →
      (∃ ext, σ3 = σ ++ ext) ∧
      (∀ kv ∈ out, ∀ b, kv.2 = HVal.dref b → σ.length ≤ b) := by
  intro l
  induction l with
  | nil =>
    intro σ σ3 out h
    rw [sortEntriesWith] at h
    cases h
    exact ⟨⟨[], by rw [List.append_nil]⟩, fun kv hkv => by cases hkv⟩
  | cons kv0 t ih =>
    intro σ σ3 out h
    obtain ⟨k, v⟩ := kv0
    rw [sortEntriesWith] at h
    split at h
    · cases h
    · next σ2 v2 hev =>
      split at h
      · cases h
      · next σt t3 ht =>
        cases h
        obtain ⟨⟨ext1, hx1⟩, hfr1⟩ := entryVal_props f hf _ _ _ _ hev
        obtain ⟨⟨ext2, hx2⟩, hfresh⟩ := ih _ _ _ ht
        refine ⟨⟨ext1 ++ ext2, by rw [hx2, hx1, List.append_assoc]⟩, ?_⟩
        intro kv hkv b hb
        rcases List.mem_cons.mp hkv with rfl | hkv2
        · exact hfr1 b hb
        · have h3 := hfresh kv hkv2 b hb
          rw [hx1, List.length_append] at h3
          omega

theorem getElem?_concat_length (l : Store) (x : HBody) :
    (l ++ [x])[l.length]? = some x := by
  simp

theorem sorted_dictH_props : ∀ (fuel : Nat) (σ : Store) (a : Nat)
    (σ2 : Store) (r : Nat), sorted_dictH fuel σ a = some (σ2, r) →
    (∃ ext, σ2 = σ ++ ext) ∧ σ.length ≤ r ∧ r < σ2.length ∧
    (∀ body, σ2[r]? = some body →
      ∀ kv ∈ body, ∀ b, kv.2 = HVal.dref b → σ.length ≤ b) := by
  intro fuel
  induction fuel with
  | zero => intro σ a σ2 r h; cases h
  | succ fuel ih =>
    intro σ a σ2 r h
    rw [sorted_dictH] at h
    split at h
    · cases h
    · next body hget =>
      split at h
      · cases h
      · next σ3 entries hsort =>
        cases h
        obtain ⟨⟨ext, hx⟩, hfresh⟩ := sortEntriesWith_props (sorted_dictH fuel)
          (fun σ0 a0 σ0' r0 h0 => ⟨(ih σ0 a0 σ0' r0 h0).1,
            (ih σ0 a0 σ0' r0 h0).2.1⟩) _ _ _ _ hsort
        refine ⟨⟨ext ++ [entries], by rw [hx, List.append_assoc]⟩,
          by rw [hx, List.length_append]; omega,
          by rw [List.length_append, List.length_singleton]; omega, ?_⟩
        intro body2 hb2 kv hkv b hb
        rw [getElem?_concat_length] at hb2
        cases hb2
        exact hfresh kv hkv b hb

/-! ### Claim C1 -/

/-- Claim C1: the caller-supplied document is NOT always unchanged.  On an
unsupported kind the temporarily attached top-level `name` persists after
the raise, and on a supported kind a pre-existing top-level `name` entry is
deleted rather than restored.  (This is the code-bug evidence for the
frame claim.) -/
theorem c1_mutation_persists :
    (generate_hash podDoc).2 = podDoc ++ [("name", Value.str "n")] ∧
    (generate_hash podDoc).2 ≠ podDoc ∧
    (generate_hash cmWithName).2 =
      [("kind", Value.str "ConfigMap"),
       ("metadata", Value.obj [("name", Value.str "n")])] ∧
    (generate_hash cmWithName).2 ≠ cmWithName := by
  refine ⟨rfl, ?_, rfl, ?_⟩
  · intro h
    rw [show (generate_hash podDoc).2 = podDoc ++ [("name", Value.str "n")]
        from rfl] at h
    have := congrArg List.length h
    simp [podDoc] at this
  · intro h
    rw [show (generate_hash cmWithName).2 =
        [("kind", Value.str "ConfigMap"),
         ("metadata", Value.obj [("name", Value.str "n")])] from rfl] at h
    have := congrArg List.length h
    simp [cmWithName] at this

/-- Claim C2 (amended): for a well-formed Document (distinct keys, and a
`metadata` entry that is absent or a mapping) of kind `ConfigMap`
(resp. `Secret`), `generate_hash` returns exactly the fingerprint described
by the spec pipeline with the keys `data`, `kind`, `name` (resp. plus
`type`), except that every projected value that is a mapping (not only
`data`) is recursively key-sorted before serialization; the result has
exactly 10 characters. -/
theorem c2_fingerprint_pipeline (resource : Obj)
    (hd : keysDistinct resource) (hmeta : metadataOkB resource = true) :
    (alookup resource "kind" = some (.str "ConfigMap") →
      (generate_hash resource).1 =
        .ok (spec_fingerprint resource ["data", "kind", "name"]) ∧
      (spec_fingerprint resource ["data", "kind", "name"]).length = 10) ∧
    (alookup resource "kind" = some (.str "Secret") →
      (generate_hash resource).1 =
        .ok (spec_fingerprint resource ["data", "kind", "name", "type"]) ∧
      (spec_fingerprint resource ["data", "kind", "name", "type"]).length = 10) := by
  obtain ⟨name, hm⟩ := metaName_ok_of_metadataOk hmeta
  have hkind : ∀ k, alookup resource "kind" = k →
      alookup (dictSet resource "name" name) "kind" = k := by
    intro k hk
    rw [alookup_dictSet_ne resource name (by decide)]
    exact hk
  constructor
  · intro hk
    rw [generate_hash_ok resource name hm,
        hashOfKind_config _ (hkind _ hk)]
    exact ⟨congrArg Except.ok (encode_marshal_eq hd hm _),
      by rw [spec_fingerprint]; exact fingerprintOfBytes_length _⟩
  · intro hk
    rw [generate_hash_ok resource name hm,
        hashOfKind_secret _ (hkind _ hk)]
    exact ⟨congrArg Except.ok (encode_marshal_eq hd hm _),
      by rw [spec_fingerprint]; exact fingerprintOfBytes_length _⟩

/-- Claim C2, witness: the pipeline theorem applied to a concrete
ConfigMap document. -/
theorem c2_fingerprint_pipeline_witness :
    keysDistinct cmDoc ∧ metadataOkB cmDoc = true ∧
    alookup cmDoc "kind" = some (.str "ConfigMap") ∧
    (generate_hash cmDoc).1 =
      .ok (spec_fingerprint cmDoc ["data", "kind", "name"]) ∧
    (spec_fingerprint cmDoc ["data", "kind", "name"]).length = 10 :=
  ⟨by decide, by decide, rfl,
   ((c2_fingerprint_pipeline cmDoc (by decide) (by decide)).1 rfl).1,
   ((c2_fingerprint_pipeline cmDoc (by decide) (by decide)).1 rfl).2⟩

/-- Claim C2, counterexample to the claim as written: (a) when `metadata`
is present but not a mapping the code raises AttributeError instead of
returning the described string (which would use the empty name); (b) when
`metadata.name` is itself a mapping the code key-sorts it before
serialization while the claim sorts only `data`, and the fingerprints
differ. -/
theorem c2_counterexample :
    (generate_hash badMetaCM).1 ≠
      .ok (spec_fingerprint_literal badMetaCM ["data", "kind", "name"]) ∧
    (generate_hash dictNameCM).1 ≠
      .ok (spec_fingerprint_literal dictNameCM ["data", "kind", "name"]) := by
  constructor
  · rw [show (generate_hash badMetaCM).1 = .error .attrErr from rfl]
    exact fun h => Except.noConfusion h
  · rw [← generate_hashF_eq 20 dictNameCM (by decide),
        ← spec_fingerprint_literalF_eq 20 dictNameCM
          ["data", "kind", "name"] (by decide)]
    decide

/-! ### Claim C3 -/

/-- Claim C3 (amended): on a Document whose `metadata` entry is absent or a
mapping and whose `kind` value is neither the string `ConfigMap` nor the
string `Secret`, `generate_hash` raises `NotImplementedError` and returns
no fingerprint. -/
theorem c3_unsupported_kind (resource : Obj) (k : Value)
    (hmeta : metadataOkB resource = true)
    (hk : alookup resource "kind" = some k)
    (hcm : k ≠ .str "ConfigMap") (hsec : k ≠ .str "Secret") :
    (generate_hash resource).1 = .error .notImplErr := by
  obtain ⟨name, hm⟩ := metaName_ok_of_metadataOk hmeta
  rw [generate_hash_ok resource name hm,
      hashOfKind_other _ k (by
        rw [alookup_dictSet_ne resource name (by decide)]; exact hk) hcm hsec]

/-- Claim C3, witness: a Pod document fails with `NotImplementedError`. -/
theorem c3_unsupported_kind_witness :
    metadataOkB podDoc = true ∧
    alookup podDoc "kind" = some (.str "Pod") ∧
    (Value.str "Pod" ≠ .str "ConfigMap") ∧ (Value.str "Pod" ≠ .str "Secret") ∧
    (generate_hash podDoc).1 = .error .notImplErr :=
  ⟨rfl, rfl, str_ne_of_ne (by decide), str_ne_of_ne (by decide),
   c3_unsupported_kind podDoc (.str "Pod") rfl rfl
     (str_ne_of_ne (by decide)) (str_ne_of_ne (by decide))⟩

/-- Claim C3, counterexample to the claim as written: with `kind = "Pod"`
but a string `metadata`, the code raises AttributeError, not the
unsupported-kind `NotImplementedError`. -/
theorem c3_counterexample :
    alookup badMetaPod "kind" = some (.str "Pod") ∧
    (generate_hash badMetaPod).1 = .error .attrErr ∧
    (generate_hash badMetaPod).1 ≠ .error .notImplErr :=
  ⟨rfl, rfl, by decide⟩

/-- Claim C4 (amended): two well-formed Documents of the same supported
kind that are field-wise equal except for the insertion order of mapping
keys at any depth reachable through mappings (mappings nested inside
sequences must match exactly) get the same fingerprint. -/
theorem c4_keyorder_invariance (d1 d2 : Obj) (s : String)
    (hw1 : WfV (.obj d1)) (hw2 : WfV (.obj d2))
    (heq : VEq (.obj d1) (.obj d2))
    (hkind : alookup d1 "kind" = some (.str s))
    (hsup : s = "ConfigMap" ∨ s = "Secret") :
    (generate_hash d1).1 = (generate_hash d2).1 := by
  have hd1 : keysDistinct d1 := WfV_obj_distinct hw1
  have hd2 : keysDistinct d2 := WfV_obj_distinct hw2
  have hkind2 : alookup d2 "kind" = some (.str s) := by
    rcases VEq_alookup heq hd1 "kind" with ⟨h1, _⟩ | ⟨v1, v2, h1, h2, hrel⟩
    · rw [h1] at hkind; cases hkind
    · rw [h1] at hkind
      cases hkind
      cases hrel
      exact h2
  rcases metaName_rel hw1 hw2 heq with
    ⟨e, hm1, hm2⟩ | ⟨n1, n2, hm1, hm2, hnrel, hwn1, hwn2⟩
  · rw [generate_hash_err d1 e hm1, generate_hash_err d2 e hm2]
  · have hspec : ∀ key, sortIfDict (specProjValue d1 key) =
        sortIfDict (specProjValue d2 key) := by
      intro key
      by_cases hname : key = "name"
      · subst hname
        rw [specProjValue_name hm1, specProjValue_name hm2]
        exact sortIfDict_VEq_eq n1 hwn1 n2 hnrel hwn2
      · rw [specProjValue, specProjValue, if_neg hname, if_neg hname]
        rcases VEq_alookup heq hd1 key with ⟨h1, h2⟩ | ⟨v1, v2, h1, h2, hrel⟩
        · rw [h1, h2]
        · rw [h1, h2]
          exact sortIfDict_VEq_eq v1
            (WfV_obj_mem hw1 (alookup_mem h1)) v2 hrel
            (WfV_obj_mem hw2 (alookup_mem h2))
    have hfp : ∀ keys : List String,
        spec_fingerprint d1 keys = spec_fingerprint d2 keys := by
      intro keys
      have hmap : keys.map (fun key =>
          (key, sortIfDict (specProjValue d1 key))) =
          keys.map (fun key => (key, sortIfDict (specProjValue d2 key))) :=
        List.map_congr_left (fun key _ => by rw [hspec key])
      rw [spec_fingerprint, spec_fingerprint, hmap]
    rw [generate_hash_ok d1 n1 hm1, generate_hash_ok d2 n2 hm2]
    rcases hsup with rfl | rfl
    · rw [hashOfKind_config _ (by
          rw [alookup_dictSet_ne d1 n1 (by decide)]; exact hkind),
        hashOfKind_config _ (by
          rw [alookup_dictSet_ne d2 n2 (by decide)]; exact hkind2)]
      exact congrArg Except.ok (by
        rw [encode_marshal_eq hd1 hm1 _, encode_marshal_eq hd2 hm2 _]
        exact hfp _)
    · rw [hashOfKind_secret _ (by
          rw [alookup_dictSet_ne d1 n1 (by decide)]; exact hkind),
        hashOfKind_secret _ (by
          rw [alookup_dictSet_ne d2 n2 (by decide)]; exact hkind2)]
      exact congrArg Except.ok (by
        rw [encode_marshal_eq hd1 hm1 _, encode_marshal_eq hd2 hm2 _]
        exact hfp _)

/-- Claim C4, witness: reordering the top-level keys and the keys of the
`data` mapping leaves the fingerprint unchanged. -/
theorem c4_keyorder_invariance_witness :
    WfV (.obj cmA) ∧ WfV (.obj cmB) ∧ VEq (.obj cmA) (.obj cmB) ∧
    alookup cmA "kind" = some (.str "ConfigMap") ∧
    (generate_hash cmA).1 = (generate_hash cmB).1 := by
  have hdata : VEq (.obj [("a", .str "1"), ("b", .str "2")])
      (.obj [("b", .str "2"), ("a", .str "1")]) := by
    apply VEq.obj (List.Perm.swap ("b", Value.str "2") ("a", Value.str "1") [])
    exact VEqEntries.cons "b" (VEq_refl _)
      (VEqEntries.cons "a" (VEq_refl _) VEqEntries.nil)
  have hveq : VEq (.obj cmA) (.obj cmB) := by
    apply VEq.obj (List.Perm.swap
      ("metadata", Value.obj [("name", Value.str "n")])
      ("kind", Value.str "ConfigMap")
      [("data", Value.obj [("a", Value.str "1"), ("b", Value.str "2")])])
    exact VEqEntries.cons "metadata" (VEq_refl _)
      (VEqEntries.cons "kind" (VEq_refl _)
        (VEqEntries.cons "data" hdata VEqEntries.nil))
  exact ⟨⟨4, by decide⟩, ⟨4, by decide⟩, hveq, rfl,
    c4_keyorder_invariance cmA cmB "ConfigMap" ⟨4, by decide⟩ ⟨4, by decide⟩
      hveq rfl (Or.inl rfl)⟩

/-- Claim C4, counterexample to the claim as written: the two documents
differ only in the key insertion order of a mapping nested inside a
sequence under `data` (`VEqD`), yet their fingerprints differ, because
`sorted_dict` does not descend into sequences. -/
theorem c4_counterexample :
    VEqD (.obj cmArrA) (.obj cmArrB) ∧
    alookup cmArrA "kind" = some (.str "ConfigMap") ∧
    (generate_hash cmArrA).1 ≠ (generate_hash cmArrB).1 := by
  refine ⟨?_, rfl, ?_⟩
  · have hinner : VEqD (.obj [("a", .num 1), ("b", .num 2)])
        (.obj [("b", .num 2), ("a", .num 1)]) := by
      apply VEqD.obj (List.Perm.swap ("b", Value.num 2) ("a", Value.num 1) [])
      exact VEqDEntries.cons "b" (VEqD_refl _)
        (VEqDEntries.cons "a" (VEqD_refl _) VEqDEntries.nil)
    apply VEqD.obj (List.Perm.refl cmArrA)
    exact VEqDEntries.cons "kind" (VEqD_refl _)
      (VEqDEntries.cons "metadata" (VEqD_refl _)
        (VEqDEntries.cons "data"
          (VEqD.arr (VEqDList.cons hinner VEqDList.nil)) VEqDEntries.nil))
  · rw [← generate_hashF_eq 20 cmArrA (by decide),
        ← generate_hashF_eq 20 cmArrB (by decide)]
    decide

/-- Claim C5: two Documents of the same supported kind that agree on
`data`, `kind`, `metadata.name` and `type` (and otherwise differ
arbitrarily) get identical fingerprints: fields outside the projection do
not influence the output. -/
theorem c5_noninterference (d1 d2 : Obj) (k : Value)
    (hd1 : keysDistinct d1) (hd2 : keysDistinct d2)
    (hkind1 : alookup d1 "kind" = some k)
    (hkind2 : alookup d2 "kind" = some k)
    (hsup : k = .str "ConfigMap" ∨ k = .str "Secret")
    (hdata : alookup d1 "data" = alookup d2 "data")
    (hname : metaName d1 = metaName d2)
    (htype : alookup d1 "type" = alookup d2 "type") :
    (generate_hash d1).1 = (generate_hash d2).1 := by
  cases hm : metaName d1 with
  | error e =>
    rw [generate_hash_err d1 e hm, generate_hash_err d2 e (hname ▸ hm)]
  | ok name =>
    have hm2 : metaName d2 = .ok name := hname ▸ hm
    have hspec : ∀ key,
        key = "data" ∨ key = "kind" ∨ key = "name" ∨ key = "type" →
        specProjValue d1 key = specProjValue d2 key := by
      intro key hkey
      rcases hkey with rfl | rfl | rfl | rfl
      · rw [specProjValue, specProjValue, if_neg (by decide),
            if_neg (by decide), hdata]
      · rw [specProjValue, specProjValue, if_neg (by decide),
            if_neg (by decide), hkind1, hkind2]
      · rw [specProjValue_name hm, specProjValue_name hm2]
      · rw [specProjValue, specProjValue, if_neg (by decide),
            if_neg (by decide), htype]
    have hfp : ∀ keys : List String,
        (∀ key ∈ keys,
          key = "data" ∨ key = "kind" ∨ key = "name" ∨ key = "type") →
        spec_fingerprint d1 keys = spec_fingerprint d2 keys := by
      intro keys hkeys
      have hmap : keys.map (fun key =>
          (key, sortIfDict (specProjValue d1 key))) =
          keys.map (fun key => (key, sortIfDict (specProjValue d2 key))) :=
        List.map_congr_left (fun key hk => by rw [hspec key (hkeys key hk)])
      rw [spec_fingerprint, spec_fingerprint, hmap]
    rw [generate_hash_ok d1 name hm, generate_hash_ok d2 name hm2]
    rcases hsup with rfl | rfl
    · rw [hashOfKind_config _ (by
          rw [alookup_dictSet_ne d1 name (by decide)]; exact hkind1),
        hashOfKind_config _ (by
          rw [alookup_dictSet_ne d2 name (by decide)]; exact hkind2)]
      exact congrArg Except.ok (by
        rw [encode_marshal_eq hd1 hm _, encode_marshal_eq hd2 hm2 _]
        exact hfp ["data", "kind", "name"] (by
          intro key hk
          simp only [List.mem_cons, List.not_mem_nil, or_false] at hk
          rcases hk with rfl | rfl | rfl
          · exact Or.inl rfl
          · exact Or.inr (Or.inl rfl)
          · exact Or.inr (Or.inr (Or.inl rfl))))
    · rw [hashOfKind_secret _ (by
          rw [alookup_dictSet_ne d1 name (by decide)]; exact hkind1),
        hashOfKind_secret _ (by
          rw [alookup_dictSet_ne d2 name (by decide)]; exact hkind2)]
      exact congrArg Except.ok (by
        rw [encode_marshal_eq hd1 hm _, encode_marshal_eq hd2 hm2 _]
        exact hfp ["data", "kind", "name", "type"] (by
          intro key hk
          simp only [List.mem_cons, List.not_mem_nil, or_false] at hk
          rcases hk with rfl | rfl | rfl | rfl
          · exact Or.inl rfl
          · exact Or.inr (Or.inl rfl)
          · exact Or.inr (Or.inr (Or.inl rfl))
          · exact Or.inr (Or.inr (Or.inr rfl))))

/-- Claim C5, witness: `cmDoc` and `cmDocExtra` agree on the projection and
hash identically. -/
theorem c5_noninterference_witness :
    keysDistinct cmDoc ∧ keysDistinct cmDocExtra ∧
    alookup cmDoc "kind" = some (.str "ConfigMap") ∧
    alookup cmDocExtra "kind" = some (.str "ConfigMap") ∧
    alookup cmDoc "data" = alookup cmDocExtra "data" ∧
    metaName cmDoc = metaName cmDocExtra ∧
    alookup cmDoc "type" = alookup cmDocExtra "type" ∧
    (generate_hash cmDoc).1 = (generate_hash cmDocExtra).1 :=
  ⟨by decide, by decide, rfl, rfl, rfl, rfl, rfl,
   c5_noninterference cmDoc cmDocExtra (.str "ConfigMap")
     (by decide) (by decide) rfl rfl (Or.inl rfl) rfl rfl rfl⟩

/-- Claim C6: canonicalization is idempotent: sorting an already-sorted
dict returns an identical structure. -/
theorem c6_canonicalization_idempotent (m : Obj) :
    sorted_dict (sorted_dict m) = sorted_dict m := by
  have h := sortIfDict_idem (.obj m)
  rw [sortIfDict_obj, sortIfDict_obj] at h
  exact Value.obj.inj h

/-- Claim C7: `sorted_dict` only reorders mapping keys: the result is
key-order equivalent to the input (`VEq`: same keys with the same
multiplicity at every mapping level, sequences and scalar leaves
unchanged), and in particular the top-level key list is a permutation of
the original. -/
theorem c7_sorted_dict_reorders_only (m : Obj) :
    VEq (.obj m) (.obj (sorted_dict m)) ∧
    ((sorted_dict m).map Prod.fst).Perm (m.map Prod.fst) := by
  constructor
  · have h := VEq_sortIfDict (.obj m)
    rwa [sortIfDict_obj] at h
  · rw [sorted_dict, sortByKey]
    refine ((List.perm_insertionSort keyLE _).map Prod.fst).trans ?_
    rw [List.map_map]
    exact List.Perm.refl _

/-- Claim C8: the differ is reflexive: on two identical well-formed
Documents it reports a match and an empty delta. -/
theorem c8_diff_reflexive (m : Obj) (hw : WfV (.obj m)) :
    diff_objects m m = (true, []) := by
  rw [diff_objects, (diff_self (.obj m) hw).2 m rfl]
  rfl

/-- Claim C8, witness: reflexivity at the unit tests Pod document. -/
theorem c8_diff_reflexive_witness :
    WfV (.obj pod_definition) ∧
    diff_objects pod_definition pod_definition = (true, []) :=
  ⟨⟨6, by decide⟩, c8_diff_reflexive pod_definition ⟨6, by decide⟩⟩

/-! ### Claim C9 -/

/-- Claim C9 (amended): on a Document with no top-level `kind` entry whose
`metadata` entry is absent or a mapping, `generate_hash` raises `KeyError`
(not the unsupported-kind `NotImplementedError`). -/
theorem c9_missing_kind (resource : Obj)
    (hmeta : metadataOkB resource = true)
    (hk : alookup resource "kind" = none) :
    (generate_hash resource).1 = .error .keyErr := by
  obtain ⟨name, hm⟩ := metaName_ok_of_metadataOk hmeta
  rw [generate_hash_ok resource name hm,
      hashOfKind_missing _ (by
        rw [alookup_dictSet_ne resource name (by decide)]; exact hk)]

/-- Claim C9, witness: the empty document. -/
theorem c9_missing_kind_witness :
    metadataOkB ([] : Obj) = true ∧ alookup ([] : Obj) "kind" = none ∧
    (generate_hash ([] : Obj)).1 = .error .keyErr :=
  ⟨rfl, rfl, c9_missing_kind [] rfl rfl⟩

/-- Claim C9, counterexample to the claim as written: a document with no
`kind` whose `metadata` is a string raises AttributeError before the `kind`
lookup is ever reached. -/
theorem c9_counterexample :
    alookup noKindBadMeta "kind" = none ∧
    (generate_hash noKindBadMeta).1 = .error .attrErr ∧
    (generate_hash noKindBadMeta).1 ≠ .error .keyErr :=
  ⟨rfl, rfl, by decide⟩

/-- Claim C10: `sorted_dict` mutates nothing: every address that existed
before the call keeps its exact content (in particular the argument dict),
the result is a freshly allocated dict, and every dict directly referenced
from the result is freshly allocated as well — pre-existing values are
shared only when they are not dicts. -/
theorem c10_sorted_dict_no_mutation (fuel : Nat) (σ : Store) (a : Nat)
    (σ2 : Store) (r : Nat) (h : sorted_dictH fuel σ a = some (σ2, r)) :
    (∀ b, b < σ.length → σ2[b]? = σ[b]?) ∧
    σ.length ≤ r ∧
    (∀ body, σ2[r]? = some body →
      ∀ kv ∈ body, ∀ b, kv.2 = HVal.dref b → σ.length ≤ b) := by
  obtain ⟨⟨ext, hx⟩, hr, _, hfresh⟩ := sorted_dictH_props fuel σ a σ2 r h
  refine ⟨?_, hr, hfresh⟩
  intro b hb
  rw [hx]
  exact List.getElem?_append_left hb

/-- Claim C10, witness: a two-dict heap; the outer dict at address 0
references the inner dict at address 1. -/
theorem c10_sorted_dict_no_mutation_witness :
    sorted_dictH 3 [[("b", .num 2), ("a", .dref 1)], [("x", .str "y")]] 0 =
      some ([[("b", .num 2), ("a", .dref 1)], [("x", .str "y")],
             [("x", .str "y")], [("a", .dref 2), ("b", .num 2)]], 3) ∧
    (∀ b, b < 2 →
      ([[("b", HVal.num 2), ("a", .dref 1)], [("x", .str "y")],
        [("x", .str "y")], [("a", .dref 2), ("b", .num 2)]] :
          Store)[b]? =
      ([[("b", HVal.num 2), ("a", .dref 1)], [("x", .str "y")]] :
          Store)[b]?) ∧
    (2 : Nat) ≤ 3 := by
  have h : sorted_dictH 3
      [[("b", .num 2), ("a", .dref 1)], [("x", .str "y")]] 0 =
      some ([[("b", .num 2), ("a", .dref 1)], [("x", .str "y")],
             [("x", .str "y")], [("a", .dref 2), ("b", .num 2)]], 3) := by
    rfl
  refine ⟨h, ?_, ?_⟩
  · exact (c10_sorted_dict_no_mutation 3 _ 0 _ 3 h).1
  · exact (c10_sorted_dict_no_mutation 3 _ 0 _ 3 h).2.1

end KubeCore
